import Mathlib

/-!
Verification development for the lk2nd boot-time subsystem:
the U-Boot environment store (`src/lk2nd/boot/ubootenv.c`), the A/B slot
selector and boot dispatcher (`src/lk2nd/boot/ab.c`), and the USB mass
storage target (`src/app/aboot/ums.c`).

Bytes are modelled as `Nat` (each value is a `uint8_t`, so `< 256` in all
reachable states; arithmetic that can wrap is taken modulo an explicit
power of two).  Buffers are `List Nat`.  C functions that mutate state
through pointers are modelled as functions returning the updated state
together with their `int` result.
-/

set_option linter.unusedVariables false

/-! ### Generic byte-buffer helpers -/

/-- Overwrite `xs.length` bytes of `data` starting at position `p`
(the model of `memcpy`/`snprintf` writing into the payload buffer). -/
def writeAt (data : List Nat) (p : Nat) (xs : List Nat) : List Nat :=
  data.take p ++ xs ++ data.drop (p + xs.length)

/-- The effect of `memmove(existing, existing + existing_len, remaining)` in
`uboot_env_set`: bytes `[p+len, size)` move left by `len`; the final `len`
bytes of the buffer keep their old values (memmove does not clear them). -/
def removeAt (data : List Nat) (p len : Nat) : List Nat :=
  data.take p ++ data.drop (p + len) ++ data.drop (data.length - len)

/-- Bytes of a NUL-terminated C string starting at the head of `l`
(`strlen`/value extraction reads up to the first 0 byte). -/
def cstr (l : List Nat) : List Nat := l.takeWhile (fun c => c != 0)

/-- `strlen(data + p)`, bounded by the end of the buffer. -/
def strlenFrom (data : List Nat) (p : Nat) : Nat := (cstr (data.drop p)).length

/-- `strncmp(ptr, key, key_len) == 0 && ptr[key_len] == '='` at position `p`
(61 is ASCII '=').  This is the entry-match test used by both
`uboot_env_get` and `uboot_env_set`. -/
def entryMatches (data : List Nat) (p : Nat) (key : List Nat) : Bool :=
  decide ((data.drop p).take key.length = key ∧ data[p + key.length]? = some 61)

/-- One scan loop of `uboot_env_get`/`uboot_env_set`:
`while (ptr < data + data_size && *ptr != 0) { match? ; ptr += strlen(ptr)+1 }`.
Structural fuel; `data.length + 1` fuel always suffices since the
position strictly increases each step. -/
def findKeyAux (data key : List Nat) : Nat → Nat → Option Nat
  | _, 0 => none
  | p, fuel + 1 =>
    match data[p]? with
    | none => none
    | some c =>
      if c = 0 then none
      else if entryMatches data p key then some p
      else findKeyAux data key (p + strlenFrom data p + 1) fuel

/-- Position of the first entry matching `key`, scanning from `p`. -/
def findKeyFrom (data key : List Nat) (p : Nat) : Option Nat :=
  findKeyAux data key p (data.length + 1)

/-- The end-of-environment scan of `uboot_env_set`:
`ptr = data; while (ptr < data + data_size && *ptr != 0) ptr += strlen(ptr)+1;`
returning the final pointer offset. -/
def findEndAux (data : List Nat) : Nat → Nat → Nat
  | p, 0 => p
  | p, fuel + 1 =>
    match data[p]? with
    | none => p
    | some c =>
      if c = 0 then p
      else findEndAux data (p + strlenFrom data p + 1) fuel

/-- Offset of the terminating empty record (insert position for appends). -/
def findEndFrom (data : List Nat) (p : Nat) : Nat :=
  findEndAux data p (data.length + 1)

/-- The `KEY=VALUE` records visited by the payload scan, in order. -/
def entriesAux (data : List Nat) : Nat → Nat → List (List Nat)
  | _, 0 => []
  | p, fuel + 1 =>
    match data[p]? with
    | none => []
    | some c =>
      if c = 0 then []
      else cstr (data.drop p) :: entriesAux data (p + strlenFrom data p + 1) fuel

/-- All records of a payload. -/
def envEntries (data : List Nat) : List (List Nat) :=
  entriesAux data 0 (data.length + 1)

/-- Whether a record is an entry for `key` (`key` followed by '='). -/
def isEntryFor (key entry : List Nat) : Bool :=
  decide (entry.take (key.length + 1) = key ++ [61])

/-! ### `strtok_r(order, " ", ..)` tokenisation (used by the slot scans) -/

/-- Accumulator-based splitter: tokens are the maximal runs of non-space
bytes (32 is ASCII space); empty tokens are never produced, exactly as
`strtok_r` behaves. -/
def splitTokensAux : List Nat → List Nat → List (List Nat)
  | [], acc => if acc.isEmpty then [] else [acc.reverse]
  | c :: rest, acc =>
    if c = 32 then
      (if acc.isEmpty then splitTokensAux rest []
       else acc.reverse :: splitTokensAux rest [])
    else splitTokensAux rest (c :: acc)

/-- `strtok_r` tokens of a `BOOT_ORDER` string. -/
def splitTokens (s : List Nat) : List (List Nat) := splitTokensAux s []

/-- A `BOOT_ORDER` string built from single slot letters joined by single
spaces (the well-formed shape "A B" described by the data model). -/
def spaceJoin : List Nat → List Nat
  | [] => []
  | [l] => [l]
  | l :: ls => l :: 32 :: spaceJoin ls

/-! ### Decimal formatting (`snprintf("%d", n)` for `n ≥ 0`) -/

/-- Fuel-based most-significant-first decimal digits (ASCII). -/
def decBytesAux : Nat → Nat → List Nat
  | 0, _ => []
  | _ + 1, 0 => []
  | fuel + 1, n + 1 => decBytesAux fuel ((n + 1) / 10) ++ [48 + (n + 1) % 10]

/-- ASCII bytes of the decimal representation of `n`. -/
def decBytes (n : Nat) : List Nat :=
  if n = 0 then [48] else decBytesAux (n + 1) n

/-! ### CRC32 (zlib polynomial, as `crc32(0, data, len)`) -/

def crc32Round (c : Nat) : Nat :=
  if c % 2 = 1 then (c / 2) ^^^ 0xEDB88320 else c / 2

def crc32Byte (c b : Nat) : Nat :=
  crc32Round (crc32Round (crc32Round (crc32Round
    (crc32Round (crc32Round (crc32Round (crc32Round (c ^^^ (b % 256)))))))))

def crc32z (init : Nat) (bytes : List Nat) : Nat :=
  (bytes.foldl crc32Byte ((init % 2 ^ 32) ^^^ 0xFFFFFFFF)) ^^^ 0xFFFFFFFF

/-- `uboot_env_crc`: `crc32(0, data, len)`. -/
def uboot_env_crc (data : List Nat) : Nat := crc32z 0 data

/-- 4-byte little-endian encoding (the on-disk CRC header field). -/
def le32 (n : Nat) : List Nat :=
  [n % 256, n / 2 ^ 8 % 256, n / 2 ^ 16 % 256, n / 2 ^ 24 % 256]

/-- Little-endian decoding of (up to) 4 bytes. -/
def de32 (bytes : List Nat) : Nat :=
  bytes.getD 0 0 + bytes.getD 1 0 * 2 ^ 8 + bytes.getD 2 0 * 2 ^ 16 +
    bytes.getD 3 0 * 2 ^ 24

/-! ### The `struct uboot_env` state -/

/-- `struct uboot_env` from `ubootenv.h`: cached CRC, the payload bytes
(`data`, of length `data_size = size - 5`), the dirty flag and the cached
RAUC boot state.  (`flags`/`size`/`data_size` are carried implicitly:
`data_size = data.length`, `size = data.length + 5`.) -/
structure UbootEnv where
  crc : Nat
  data : List Nat
  dirty : Bool
  boot_order : List Nat
  boot_a_left : Int
  boot_b_left : Int
deriving Repr, DecidableEq

/-- ASCII bytes of the key names (avoids string literals). -/
def bootALeftKey : List Nat := [66, 79, 79, 84, 95, 65, 95, 76, 69, 70, 84]

def bootBLeftKey : List Nat := [66, 79, 79, 84, 95, 66, 95, 76, 69, 70, 84]

/-- `uboot_env_get`: linear scan of the payload; returns the value bytes of
the first matching entry (a pointer to the NUL-terminated value in C). -/
def uboot_env_get (env : UbootEnv) (key : List Nat) : Option (List Nat) :=
  match findKeyFrom env.data key 0 with
  | some p => some (cstr (env.data.drop (p + key.length + 1)))
  | none => none

/-- Shared tail of `uboot_env_set`: append `key=value\0` plus the final
NUL at `ipos`, or fail with out-of-space when `entry_len + 1` bytes do not
fit.  On failure, `data` (possibly already compacted by the caller) is
kept as-is and `dirty` is untouched. -/
def envAppend (env : UbootEnv) (data : List Nat) (ipos : Nat)
    (key value : List Nat) (entry_len : Nat) : Int × UbootEnv :=
  let available := data.length - ipos
  if entry_len + 1 > available then (-1, { env with data := data })
  else
    (0, { env with
            data := writeAt (writeAt data ipos (key ++ 61 :: value ++ [0]))
                      (ipos + entry_len) [0],
            dirty := true })

/-- `uboot_env_set`: overwrite in place when the new entry fits into the
existing one, otherwise compact the payload left (removing the old entry)
and append at the end; marks dirty on success. -/
def uboot_env_set (env : UbootEnv) (key value : List Nat) : Int × UbootEnv :=
  let data := env.data
  let entry_len := key.length + 1 + value.length + 1
  match findKeyFrom data key 0 with
  | some existing =>
    let existing_len := strlenFrom data existing + 1
    if entry_len ≤ existing_len then
      -- snprintf(existing, existing_len, "%s=%s", key, value);
      -- its return value is entry_len - 1, so the truncation check below
      -- (ret >= existing_len) can never fire in this branch.
      if entry_len - 1 ≥ existing_len then (-1, env)
      else (0, { env with
                   data := writeAt data existing (key ++ 61 :: value ++ [0]),
                   dirty := true })
    else
      let data1 := removeAt data existing existing_len
      envAppend env data1 (findEndFrom data1 0) key value entry_len
  | none =>
    envAppend env data (findEndFrom data 0) key value entry_len

/-- `uboot_env_save(env, partition, offset)`.  The block device is
abstracted: `writeOk` tells whether the single `bio_write` of the whole
`size = data.length + 5` byte image succeeds.  Returns the result code,
the updated state, and the image written (if any). -/
def uboot_env_save (env : UbootEnv) (writeOk : Bool) :
    Int × UbootEnv × Option (List Nat) :=
  if env.dirty = false then (0, env, none)
  else
    let c := uboot_env_crc env.data
    let image := le32 c ++ 1 :: env.data
    if writeOk then (0, { env with crc := c, dirty := false }, some image)
    else (-1, { env with crc := c }, none)

/-- `uboot_env_decrement_boot_left`: decrement the cached counter and
persist it into the payload via `uboot_env_set` (whose result the C code
ignores); `-1` without any mutation when the counter is exhausted or the
slot letter is unknown. -/
def uboot_env_decrement_boot_left (env : UbootEnv) (slot : Nat) :
    Int × UbootEnv :=
  if slot = 65 then
    if env.boot_a_left > 0 then
      let c := env.boot_a_left - 1
      let env1 := { env with boot_a_left := c }
      (0, (uboot_env_set env1 bootALeftKey (decBytes c.toNat)).2)
    else (-1, env)
  else if slot = 66 then
    if env.boot_b_left > 0 then
      let c := env.boot_b_left - 1
      let env1 := { env with boot_b_left := c }
      (0, (uboot_env_set env1 bootBLeftKey (decBytes c.toNat)).2)
    else (-1, env)
  else (-1, env)

/-- The token loop of `uboot_env_get_boot_slot`: first token whose head is
'A' (65) with attempts left, else 'B' (66) with attempts left. -/
def bootSlotLoop (a b : Int) : List (List Nat) → Option Nat
  | [] => none
  | t :: ts =>
    if t.headD 0 = 65 ∧ a > 0 then some 65
    else if t.headD 0 = 66 ∧ b > 0 then some 66
    else bootSlotLoop a b ts

/-- `uboot_env_get_boot_slot`: first slot in `BOOT_ORDER` with attempts
remaining; when all are exhausted, `boot_order[0]` as a last resort. -/
def uboot_env_get_boot_slot (env : UbootEnv) : Nat :=
  (bootSlotLoop env.boot_a_left env.boot_b_left
      (splitTokens env.boot_order)).getD (env.boot_order.headD 0)

/-- The token loop of `uboot_env_get_next_slot` with its `found_current`
flag: after the first occurrence of `current`, the first token with
attempts remaining is returned; 0 (`'\0'`) when none qualifies. -/
def nextSlotLoop (a b : Int) (current : Nat) : Bool → List (List Nat) → Nat
  | _, [] => 0
  | found, t :: ts =>
    if found ∧ t.headD 0 = 65 ∧ a > 0 then 65
    else if found ∧ t.headD 0 = 66 ∧ b > 0 then 66
    else nextSlotLoop a b current (found || (t.headD 0 == current)) ts

/-- `uboot_env_get_next_slot`. -/
def uboot_env_get_next_slot (env : UbootEnv) (current : Nat) : Nat :=
  nextSlotLoop env.boot_a_left env.boot_b_left current false
    (splitTokens env.boot_order)

/-! ### Spec-side slot-selector functions (from the spec's words, §4.2) -/

/-- A slot letter qualifies when it is a known letter whose counter is
positive; unknown letters never qualify (they are skipped). -/
def slotQualifies (a b : Int) (l : Nat) : Bool :=
  (l == 65 && decide (a > 0)) || (l == 66 && decide (b > 0))

/-- Spec: "return the first slot in BOOT_ORDER whose BOOT_<slot>_LEFT > 0.
If none qualifies, return the first slot in BOOT_ORDER." -/
def specCurrentSlot (a b : Int) (letters : List Nat) : Nat :=
  (letters.find? (slotQualifies a b)).getD (letters.headD 0)

/-- Spec: "scan BOOT_ORDER, find current, then return the next slot with
> 0 attempts left; none if no successor qualifies." -/
def specNextSlot (a b : Int) (current : Nat) : List Nat → Nat
  | [] => 0
  | l :: ls =>
    if l = current then ((ls.find? (slotQualifies a b)).getD 0)
    else specNextSlot a b current ls

/-! ### A/B dispatcher state (`ab.c`) -/

/-- The relevant part of the global `ab_state`. -/
structure AbState where
  env : UbootEnv
  current_slot : Nat
  initialized : Bool
deriving Repr, DecidableEq

/-- The slot-selection body of `lk2nd_boot_ab_pre_boot` (everything before
the final `uboot_env_save` call): decrement the current slot; on
exhaustion consult `uboot_env_get_next_slot`, switch and decrement when a
successor exists, otherwise retain the current slot. -/
def preBootSelect (st : AbState) : AbState :=
  let dec := uboot_env_decrement_boot_left st.env st.current_slot
  if dec.1 < 0 then
    let n := uboot_env_get_next_slot dec.2 st.current_slot
    if n ≠ 0 then
      { st with current_slot := n,
                env := (uboot_env_decrement_boot_left dec.2 n).2 }
    else { st with env := dec.2 }
  else { st with env := dec.2 }

/-- `lk2nd_boot_ab_pre_boot`: no-op when A/B is not initialized; otherwise
the selection body followed by `uboot_env_save` (whose result is
ignored by the C code). -/
def lk2nd_boot_ab_pre_boot (st : AbState) (writeOk : Bool) :
    AbState × Option (List Nat) :=
  if st.initialized = false then (st, none)
  else
    let st1 := preBootSelect st
    let sv := uboot_env_save st1.env writeOk
    ({ st1 with env := sv.2.1 }, sv.2.2)

/-! ### UMS target (`ums.c`, current chunked version) -/

/-- `struct cbw` (31 bytes on the wire; fields little-endian). -/
structure Cbw where
  signature : Nat
  tag : Nat
  data_transfer_length : Nat
  flags : Nat
  lun : Nat
  cb_length : Nat
  cb : List Nat
deriving Repr, DecidableEq

/-- `struct csw` (13 bytes on the wire). -/
structure Csw where
  signature : Nat
  tag : Nat
  data_residue : Nat
  status : Nat
deriving Repr, DecidableEq

/-- Observable I/O of one SCSI command: bulk-IN data payloads sent to the
host, bulk-OUT byte counts requested from the host, `ums_set_sense`
calls, and `bio_read`/`bio_write` calls as `(byte offset, length)`. -/
structure Effects where
  hostWrites : List (List Nat)
  hostReadReqs : List Nat
  senseSets : List (Nat × Nat × Nat)
  bioReads : List (Nat × Nat)
  bioWrites : List (Nat × Nat)
deriving Repr, DecidableEq

def Effects.nil : Effects := ⟨[], [], [], [], []⟩

def Effects.app (x y : Effects) : Effects :=
  ⟨x.hostWrites ++ y.hostWrites, x.hostReadReqs ++ y.hostReadReqs,
   x.senseSets ++ y.senseSets, x.bioReads ++ y.bioReads,
   x.bioWrites ++ y.bioWrites⟩

def hostWriteEff (bytes : List Nat) : Effects := ⟨[bytes], [], [], [], []⟩

def hostReadEff (len : Nat) : Effects := ⟨[], [len], [], [], []⟩

def senseEff (k a q : Nat) : Effects := ⟨[], [], [(k, a, q)], [], []⟩

def bioReadEff (off len : Nat) : Effects := ⟨[], [], [], [(off, len)], []⟩

def bioWriteEff (off len : Nat) : Effects := ⟨[], [], [], [], [(off, len)]⟩

/-- `struct ums_device` (the fields the SCSI layer reads), together with
the bytes of the exported block device (`storage`) and the transfer
buffer size chosen by `ums_init` (`buffer_size`). -/
structure UmsDevice where
  is_mounted : Bool
  has_bio_dev : Bool
  is_read_only : Bool
  block_count : Nat
  block_size : Nat
  storage : List Nat
  sense_key : Nat
  asc : Nat
  ascq : Nat
  buffer_size : Nat
deriving Repr, DecidableEq

/-- The zeroed global `g_ums_device`. -/
def initialUms : UmsDevice := ⟨false, false, false, 0, 0, [], 0, 0, 0, 0⟩

/-- `ums_set_sense`. -/
def setSense (d : UmsDevice) (k a q : Nat) : UmsDevice :=
  { d with sense_key := k, asc := a, ascq := q }

/-- `bio_read`: succeeds (returning the bytes) iff the range is within the
device. -/
def bioRead (storage : List Nat) (off len : Nat) : Option (List Nat) :=
  if off + len ≤ storage.length then some ((storage.drop off).take len)
  else none

/-- Big-endian CDB fields of READ(10)/WRITE(10): 32-bit LBA from bytes
2..5 (the C `(cb[2]<<24)|(cb[3]<<16)|(cb[4]<<8)|cb[5]`, equal to this sum
for byte values `< 256`). -/
def cdbLba (cbw : Cbw) : Nat :=
  cbw.cb.getD 2 0 * 2 ^ 24 + cbw.cb.getD 3 0 * 2 ^ 16 +
    cbw.cb.getD 4 0 * 2 ^ 8 + cbw.cb.getD 5 0

/-- 16-bit transfer length from CDB bytes 7..8. -/
def cdbCount (cbw : Cbw) : Nat := cbw.cb.getD 7 0 * 2 ^ 8 + cbw.cb.getD 8 0

/-- The READ(10)/WRITE(10) bounds check, exactly as in the C source:
`lba >= block_count || (lba + transfer_length) > block_count` where the
sum is `uint32_t` addition (wraps modulo 2^32). -/
def rwOutOfRange (d : UmsDevice) (lba tl : Nat) : Prop :=
  lba ≥ d.block_count ∨ (lba + tl) % 2 ^ 32 > d.block_count

instance (d : UmsDevice) (lba tl : Nat) : Decidable (rwOutOfRange d lba tl) := by
  unfold rwOutOfRange; infer_instance

/-- The chunk loop of the chunked `ums_scsi_read_10`: up to
`max_blocks_per_chunk` blocks per iteration, each iteration one
`bio_read` then one (chunked) `ums_usb_write`.  `fuel = remaining`
suffices whenever `mbpc ≥ 1`; the C loop never terminates when
`mbpc = 0`, modelled by the distinguished result `-99` on fuel
exhaustion. -/
def readLoop (d : UmsDevice) (mbpc : Nat) : Nat → Nat → Nat →
    Int × UmsDevice × Effects
  | _, remaining, 0 =>
    if remaining = 0 then (0, d, Effects.nil) else (-99, d, Effects.nil)
  | lba, remaining, fuel + 1 =>
    if remaining = 0 then (0, d, Effects.nil)
    else
      let chunk := if remaining > mbpc then mbpc else remaining
      let cbytes := chunk * d.block_size
      let off := lba * d.block_size
      match bioRead d.storage off cbytes with
      | none =>
        (-1, setSense d 3 0 0, Effects.app (bioReadEff off cbytes) (senseEff 3 0 0))
      | some bytes =>
        let rest := readLoop d mbpc (lba + chunk) (remaining - chunk) fuel
        (rest.1, rest.2.1,
         Effects.app (Effects.app (bioReadEff off cbytes) (hostWriteEff bytes))
           rest.2.2)

/-- Chunked `ums_scsi_read_10` (current version, `ums.c:331`). -/
def ums_scsi_read_10 (d : UmsDevice) (cbw : Cbw) : Int × UmsDevice × Effects :=
  if ¬(d.is_mounted = true ∧ d.has_bio_dev = true) then
    (-1, setSense d 2 0x3A 0, senseEff 2 0x3A 0)
  else
    let lba := cdbLba cbw
    let tl := cdbCount cbw
    if rwOutOfRange d lba tl then (-1, setSense d 5 0x24 0, senseEff 5 0x24 0)
    else readLoop d (d.buffer_size / d.block_size) lba tl tl

/-- Earlier, unchunked `ums_scsi_read_10` (`ums.c:1110`): same bounds
check, one `bio_read` of the whole range, one bulk-IN transfer. -/
def ums_scsi_read_10_v1 (d : UmsDevice) (cbw : Cbw) :
    Int × UmsDevice × Effects :=
  if ¬(d.is_mounted = true ∧ d.has_bio_dev = true) then
    (-1, setSense d 2 0x3A 0, senseEff 2 0x3A 0)
  else
    let lba := cdbLba cbw
    let tl := cdbCount cbw
    if rwOutOfRange d lba tl then (-1, setSense d 5 0x24 0, senseEff 5 0x24 0)
    else
      let off := lba * d.block_size
      let len := tl * d.block_size
      match bioRead d.storage off len with
      | none =>
        (-1, setSense d 3 0 0, Effects.app (bioReadEff off len) (senseEff 3 0 0))
      | some bytes =>
        (0, d, Effects.app (bioReadEff off len) (hostWriteEff bytes))

/-- The chunk loop of the chunked `ums_scsi_write_10`: each iteration one
chunked `ums_usb_read` from the host then one `bio_write`.  The bytes
received are taken positionally from the host-supplied stream `host`. -/
def writeLoop (d : UmsDevice) (mbpc : Nat) : Nat → Nat → List Nat → Nat →
    Int × UmsDevice × Effects
  | _, remaining, _, 0 =>
    if remaining = 0 then (0, d, Effects.nil) else (-99, d, Effects.nil)
  | lba, remaining, host, fuel + 1 =>
    if remaining = 0 then (0, d, Effects.nil)
    else
      let chunk := if remaining > mbpc then mbpc else remaining
      let cbytes := chunk * d.block_size
      let off := lba * d.block_size
      if off + cbytes ≤ d.storage.length then
        let d1 := { d with storage := writeAt d.storage off (host.take cbytes) }
        let rest := writeLoop d1 mbpc (lba + chunk) (remaining - chunk)
          (host.drop cbytes) fuel
        (rest.1, rest.2.1,
         Effects.app (Effects.app (hostReadEff cbytes) (bioWriteEff off cbytes))
           rest.2.2)
      else
        (-1, setSense d 3 0 0,
         Effects.app (hostReadEff cbytes)
           (Effects.app (bioWriteEff off cbytes) (senseEff 3 0 0)))

/-- Chunked `ums_scsi_write_10` (current version, `ums.c:388`). -/
def ums_scsi_write_10 (d : UmsDevice) (cbw : Cbw) (host : List Nat) :
    Int × UmsDevice × Effects :=
  if ¬(d.is_mounted = true ∧ d.has_bio_dev = true) then
    (-1, setSense d 2 0x3A 0, senseEff 2 0x3A 0)
  else if d.is_read_only = true then
    (-1, setSense d 5 0x27 0, senseEff 5 0x27 0)
  else
    let lba := cdbLba cbw
    let tl := cdbCount cbw
    if rwOutOfRange d lba tl then (-1, setSense d 5 0x24 0, senseEff 5 0x24 0)
    else writeLoop d (d.buffer_size / d.block_size) lba tl host tl

/-- `ums_scsi_test_unit_ready`. -/
def ums_scsi_test_unit_ready (d : UmsDevice) : Int × UmsDevice × Effects :=
  if d.is_mounted = true then (0, setSense d 0 0 0, senseEff 0 0 0)
  else (-1, setSense d 2 0x3A 0, senseEff 2 0x3A 0)

/-- The 18 fixed sense bytes built by `ums_scsi_request_sense`. -/
def senseBytes (d : UmsDevice) : List Nat :=
  [0x70, 0, d.sense_key, 0, 0, 0, 0, 10, 0, 0, 0, 0, d.asc, d.ascq, 0, 0, 0, 0]

/-- `ums_scsi_request_sense`: send the sense data truncated to the
requested length, then clear the sense to NO_SENSE. -/
def ums_scsi_request_sense (d : UmsDevice) (cbw : Cbw) :
    Int × UmsDevice × Effects :=
  let len := min cbw.data_transfer_length 18
  (0, setSense d 0 0 0,
   Effects.app (hostWriteEff ((senseBytes d).take len)) (senseEff 0 0 0))

/-- The 36 standard inquiry bytes (`struct scsi_inquiry_data` serialised:
removable direct-access device, SPC-2, fixed vendor/product/revision). -/
def inquiryBytes : List Nat :=
  [0x00, 0x80, 0x04, 0x02, 31, 0, 0, 0] ++
  [108, 107, 50, 110, 100, 32, 32, 32] ++
  [77, 97, 115, 115, 32, 83, 116, 111, 114, 97, 103, 101, 32, 32, 32, 32] ++
  [49, 46, 48, 32]

/-- `ums_scsi_inquiry`. -/
def ums_scsi_inquiry (d : UmsDevice) (cbw : Cbw) : Int × UmsDevice × Effects :=
  let len := min cbw.data_transfer_length 36
  (0, d, hostWriteEff (inquiryBytes.take len))

/-- Big-endian 32-bit encoding (READ CAPACITY response fields). -/
def be32 (n : Nat) : List Nat :=
  [n / 2 ^ 24 % 256, n / 2 ^ 16 % 256, n / 2 ^ 8 % 256, n % 256]

/-- `ums_scsi_read_capacity`: last LBA and block length, big-endian
(`__builtin_bswap32` truncates the 64-bit `block_count - 1` to 32 bits). -/
def ums_scsi_read_capacity (d : UmsDevice) (cbw : Cbw) :
    Int × UmsDevice × Effects :=
  if d.is_mounted = false then (-1, setSense d 2 0x3A 0, senseEff 2 0x3A 0)
  else
    let bytes := be32 ((d.block_count - 1) % 2 ^ 32) ++ be32 (d.block_size % 2 ^ 32)
    let len := min cbw.data_transfer_length 8
    (0, d, hostWriteEff (bytes.take len))

/-- `ums_scsi_mode_sense_6`: 4-byte header; device-specific parameter is
0x80 when read-only. -/
def ums_scsi_mode_sense_6 (d : UmsDevice) (cbw : Cbw) :
    Int × UmsDevice × Effects :=
  let bytes := [3, 0, if d.is_read_only = true then 0x80 else 0x00, 0]
  let len := min cbw.data_transfer_length 4
  (0, d, hostWriteEff (bytes.take len))

/-- `ums_handle_scsi_command`: dispatch on `cb[0]`. -/
def ums_handle_scsi_command (d : UmsDevice) (cbw : Cbw) (host : List Nat) :
    Int × UmsDevice × Effects :=
  match cbw.cb.getD 0 0 with
  | 0x00 => ums_scsi_test_unit_ready d
  | 0x03 => ums_scsi_request_sense d cbw
  | 0x12 => ums_scsi_inquiry d cbw
  | 0x25 => ums_scsi_read_capacity d cbw
  | 0x28 => ums_scsi_read_10 d cbw
  | 0x2A => ums_scsi_write_10 d cbw host
  | 0x1A => ums_scsi_mode_sense_6 d cbw
  | 0x1B => (0, d, Effects.nil)
  | 0x1E => (0, d, Effects.nil)
  | 0x2F => (0, d, Effects.nil)
  | _ => (-1, setSense d 5 0x20 0, senseEff 5 0x20 0)

/-- `ums_handle_cbw`: drop the command silently on a bad signature;
otherwise run the SCSI command and send exactly one CSW echoing the tag,
with status FAILED and residue = `data_transfer_length` on failure. -/
def ums_handle_cbw (d : UmsDevice) (cbw : Cbw) (host : List Nat) :
    Int × UmsDevice × Effects × Option Csw :=
  if cbw.signature ≠ 0x43425355 then (-1, d, Effects.nil, none)
  else
    let r := ums_handle_scsi_command d cbw host
    let status : Nat := if r.1 < 0 then 1 else 0
    let residue : Nat := if r.1 < 0 then cbw.data_transfer_length else 0
    (r.1, r.2.1, r.2.2, some ⟨0x53425355, cbw.tag, residue, status⟩)

/-- One iteration of the `ums_thread` main loop: the received command is
handled only when exactly `sizeof(struct cbw)` = 31 bytes arrived. -/
def ums_thread_iteration (d : UmsDevice) (recvLen : Nat) (cbw : Cbw)
    (host : List Nat) : Int × UmsDevice × Effects × Option Csw :=
  if recvLen = 31 then ums_handle_cbw d cbw host
  else (0, d, Effects.nil, none)

/-- Successful `ums_mount_partition`: record the opened device and
unconditionally clear the read-only flag. -/
def ums_mount_partition (d : UmsDevice) (bc bs : Nat) (st : List Nat) :
    UmsDevice :=
  { d with has_bio_dev := true, block_count := bc, block_size := bs,
           storage := st, is_mounted := true, is_read_only := false }

/-- `ums_unmount_partition`. -/
def ums_unmount_partition (d : UmsDevice) : UmsDevice :=
  { d with has_bio_dev := false, is_mounted := false }

/-- The state effect of `ums_init` (sets up the transfer buffer). -/
def ums_init_state (d : UmsDevice) (bufSize : Nat) : UmsDevice :=
  { d with buffer_size := bufSize }

/-- The states of `g_ums_device` reachable through the public UMS entry
protocol: from the zeroed initial state via `ums_init`, (successful or
failed) `ums_mount_partition`, `ums_unmount_partition`, main-loop command
handling, and `ums_exit_mode` (which zeroes the state). -/
inductive UmsReach : UmsDevice → Prop
  | init : UmsReach initialUms
  | umsInit (d : UmsDevice) (bufSize : Nat) :
      UmsReach d → UmsReach (ums_init_state d bufSize)
  | mountOk (d : UmsDevice) (bc bs : Nat) (st : List Nat) :
      UmsReach d → UmsReach (ums_mount_partition d bc bs st)
  | unmount (d : UmsDevice) : UmsReach d → UmsReach (ums_unmount_partition d)
  | cbwStep (d : UmsDevice) (cbw : Cbw) (host : List Nat) :
      UmsReach d → UmsReach (ums_handle_cbw d cbw host).2.1
  | exitMode (d : UmsDevice) : UmsReach d → UmsReach initialUms

/-! ### Spec-side accessors and concrete witness inputs -/

/-- The cached counter for a slot letter (65 = 'A', 66 = 'B'). -/
def slotCounter (env : UbootEnv) (slot : Nat) : Int :=
  if slot = 65 then env.boot_a_left else env.boot_b_left

/-- The `BOOT_<slot>_LEFT` key for a slot letter. -/
def slotKey (slot : Nat) : List Nat :=
  if slot = 65 then bootALeftKey else bootBLeftKey

/-- Concrete environment: payload `BOOT_A_LEFT=3\0` padded with zeros,
cached counters 3/3, order "A B". -/
def c1env : UbootEnv :=
  ⟨0, bootALeftKey ++ [61, 51] ++ [0, 0, 0, 0, 0], false, [65, 32, 66], 3, 3⟩

/-- Concrete environment: payload `A=1\0` padded with zeros. -/
def c7env : UbootEnv :=
  ⟨0, [65, 61, 49, 0, 0, 0, 0, 0, 0, 0, 0, 0], false, [], 0, 0⟩

/-- Concrete environment: payload `K=a\0X=bb\0\0` exactly full. -/
def c8env : UbootEnv :=
  ⟨0, [75, 61, 97, 0, 88, 61, 98, 98, 0, 0], false, [], 0, 0⟩

/-- Spec-side fit test for `set` (from the spec's words): the new entry
fits either in place over an existing entry, or appended at the end of
the payload (after the old, shorter entry has been removed). -/
def setFits (data key value : List Nat) : Bool :=
  match findKeyFrom data key 0 with
  | some p =>
    decide (key.length + 1 + value.length + 1 ≤ strlenFrom data p + 1) ||
      decide (key.length + 1 + value.length + 1 + 1 ≤
        (removeAt data p (strlenFrom data p + 1)).length -
          findEndFrom (removeAt data p (strlenFrom data p + 1)) 0)
  | none =>
    decide (key.length + 1 + value.length + 1 + 1 ≤
      data.length - findEndFrom data 0)

/-! ### Helper lemmas: byte buffers -/

theorem mem_of_getElem?_eq {l : List Nat} {n a : Nat} (h : l[n]? = some a) : a ∈ l := by
  obtain ⟨hlt, he⟩ := List.getElem?_eq_some.mp h
  exact he ▸ List.getElem_mem hlt

theorem exists_cons_of_getElem?_zero {l : List Nat} {c : Nat} (h : l[0]? = some c) :
    ∃ t, l = c :: t := by
  cases l with
  | nil => simp at h
  | cons a t => simp at h; exact ⟨t, by rw [h]⟩

theorem writeAt_length {data xs : List Nat} {p : Nat} (h : p + xs.length ≤ data.length) :
    (writeAt data p xs).length = data.length := by
  simp [writeAt]; omega

theorem writeAt_getElem_lt {data xs : List Nat} {p i : Nat} (hi : i < p)
    (hp : p ≤ data.length) : (writeAt data p xs)[i]? = data[i]? := by
  unfold writeAt
  rw [List.append_assoc, List.getElem?_append_left (by simp; omega),
    List.getElem?_take_of_lt hi]

theorem writeAt_getElem_mid {data xs : List Nat} {p i : Nat} (h1 : p ≤ i)
    (h2 : i < p + xs.length) (hp : p ≤ data.length) :
    (writeAt data p xs)[i]? = xs[i - p]? := by
  unfold writeAt
  rw [List.append_assoc, List.getElem?_append_right (by simp; omega),
    List.getElem?_append_left (by simp; omega)]
  congr 1
  simp; omega

theorem writeAt_getElem_ge {data xs : List Nat} {p i : Nat} (h1 : p + xs.length ≤ i)
    (hp : p + xs.length ≤ data.length) : (writeAt data p xs)[i]? = data[i]? := by
  unfold writeAt
  rw [List.append_assoc, List.getElem?_append_right (by simp; omega),
    List.getElem?_append_right (by simp; omega), List.getElem?_drop]
  congr 1
  simp; omega

theorem writeAt_drop {data xs : List Nat} {p : Nat} (hp : p ≤ data.length) :
    (writeAt data p xs).drop p = xs ++ data.drop (p + xs.length) := by
  unfold writeAt
  rw [List.append_assoc, List.drop_append_eq_append_drop,
    List.drop_of_length_le (by simp)]
  have h0 : p - (data.take p).length = 0 := by simp; omega
  rw [h0, List.nil_append, List.drop_zero]

theorem writeAt_writeAt {data xs ys : List Nat} {p : Nat}
    (h : p + xs.length + ys.length ≤ data.length) :
    writeAt (writeAt data p xs) (p + xs.length) ys = writeAt data p (xs ++ ys) := by
  have hlen1 : (writeAt data p xs).length = data.length := writeAt_length (by omega)
  apply List.ext_getElem?
  intro n
  rcases Nat.lt_or_ge n p with hn | hn
  · have e1 : (writeAt (writeAt data p xs) (p + xs.length) ys)[n]? =
        (writeAt data p xs)[n]? := writeAt_getElem_lt (by omega) (by omega)
    have e2 : (writeAt data p xs)[n]? = data[n]? := writeAt_getElem_lt hn (by omega)
    have e3 : (writeAt data p (xs ++ ys))[n]? = data[n]? :=
      writeAt_getElem_lt hn (by omega)
    rw [e1, e2, e3]
  rcases Nat.lt_or_ge n (p + xs.length) with hn2 | hn2
  · have e1 : (writeAt (writeAt data p xs) (p + xs.length) ys)[n]? =
        (writeAt data p xs)[n]? := writeAt_getElem_lt (by omega) (by omega)
    have e2 : (writeAt data p xs)[n]? = xs[n - p]? :=
      writeAt_getElem_mid hn hn2 (by omega)
    have e3 : (writeAt data p (xs ++ ys))[n]? = (xs ++ ys)[n - p]? :=
      writeAt_getElem_mid hn (by simp; omega) (by omega)
    rw [e1, e2, e3, List.getElem?_append_left (by omega)]
  rcases Nat.lt_or_ge n (p + xs.length + ys.length) with hn3 | hn3
  · have e1 : (writeAt (writeAt data p xs) (p + xs.length) ys)[n]? =
        ys[n - (p + xs.length)]? := writeAt_getElem_mid hn2 (by omega) (by omega)
    have e3 : (writeAt data p (xs ++ ys))[n]? = (xs ++ ys)[n - p]? :=
      writeAt_getElem_mid hn (by simp; omega) (by omega)
    rw [e1, e3, List.getElem?_append_right (by omega)]
    congr 1
    omega
  · have e1 : (writeAt (writeAt data p xs) (p + xs.length) ys)[n]? =
        (writeAt data p xs)[n]? := writeAt_getElem_ge (by omega) (by omega)
    have e2 : (writeAt data p xs)[n]? = data[n]? := writeAt_getElem_ge (by omega) (by omega)
    have e3 : (writeAt data p (xs ++ ys))[n]? = data[n]? :=
      writeAt_getElem_ge (by simp; omega) (by simp; omega)
    rw [e1, e2, e3]

theorem removeAt_length {data : List Nat} {p len : Nat} (h : p + len ≤ data.length) :
    (removeAt data p len).length = data.length := by
  simp [removeAt]; omega

theorem removeAt_getElem_lt {data : List Nat} {p len i : Nat} (hi : i < p)
    (h : p + len ≤ data.length) : (removeAt data p len)[i]? = data[i]? := by
  unfold removeAt
  rw [List.append_assoc, List.getElem?_append_left (by simp; omega),
    List.getElem?_take_of_lt hi]

theorem removeAt_getElem_mid {data : List Nat} {p len i : Nat} (h1 : p ≤ i)
    (h2 : i < data.length - len) (h : p + len ≤ data.length) :
    (removeAt data p len)[i]? = data[i + len]? := by
  unfold removeAt
  rw [List.append_assoc, List.getElem?_append_right (by simp; omega),
    List.getElem?_append_left (by simp; omega), List.getElem?_drop]
  congr 1
  simp; omega

theorem removeAt_getElem_tail {data : List Nat} {p len i : Nat}
    (h1 : data.length - len ≤ i) (h : p + len ≤ data.length) :
    (removeAt data p len)[i]? = data[i]? := by
  rcases Nat.lt_or_ge i data.length with hi | hi
  · unfold removeAt
    rw [List.append_assoc, List.getElem?_append_right (by simp; omega),
      List.getElem?_append_right (by simp; omega), List.getElem?_drop]
    congr 1
    simp; omega
  · have hL : (removeAt data p len).length = data.length := removeAt_length h
    rw [List.getElem?_eq_none (by omega), List.getElem?_eq_none (by omega)]

/-! ### Helper lemmas: NUL-terminated strings -/

theorem cstr_append {xs rest : List Nat} (h : 0 ∉ xs) :
    cstr (xs ++ 0 :: rest) = xs := by
  induction xs with
  | nil => simp [cstr, List.takeWhile_cons]
  | cons a t ih =>
    have ha : a ≠ 0 := fun he => h (he ▸ List.mem_cons_self a t)
    have ht : 0 ∉ t := fun hm => h (List.mem_cons_of_mem a hm)
    have hb : (a != 0) = true := by simpa using ha
    show List.takeWhile (fun c => c != 0) (a :: (t ++ 0 :: rest)) = a :: t
    rw [List.takeWhile_cons, hb]
    simp only [if_true]
    exact congrArg (a :: ·) (ih ht)

theorem cstr_length_lt {l : List Nat} (h : 0 ∈ l) : (cstr l).length < l.length := by
  induction l with
  | nil => simp at h
  | cons a t ih =>
    by_cases ha : a = 0
    · subst ha
      simp [cstr, List.takeWhile_cons]
    · have hb : (a != 0) = true := by simpa using ha
      have ht : 0 ∈ t := by
        rcases List.mem_cons.mp h with h1 | h1
        · exact absurd h1.symm ha
        · exact h1
      show (List.takeWhile (fun c => c != 0) (a :: t)).length < (a :: t).length
      rw [List.takeWhile_cons, hb]
      simp only [if_true, List.length_cons]
      exact Nat.succ_lt_succ (ih ht)

theorem takeWhile_length_stop : ∀ {l : List Nat} {L : Nat},
    (l.takeWhile (fun c => c != 0)).length = L → L < l.length → l[L]? = some 0 := by
  intro l
  induction l with
  | nil => intro L h hL; simp at hL
  | cons a t ih =>
    intro L h hL
    by_cases ha : a = 0
    · subst ha
      rw [List.takeWhile_cons] at h
      simp at h
      subst h
      simp
    · have hb : (a != 0) = true := by simpa using ha
      rw [List.takeWhile_cons, hb] at h
      simp only [if_true, List.length_cons] at h
      cases L with
      | zero => omega
      | succ L' =>
        have h' : (t.takeWhile (fun c => c != 0)).length = L' := by omega
        have hL' : L' < t.length := by simp at hL; omega
        simpa using ih h' hL'

theorem takeWhile_length_agree : ∀ {L : Nat} {l l' : List Nat},
    (∀ i, i ≤ L → l'[i]? = l[i]?) →
    (l.takeWhile (fun c => c != 0)).length = L → l[L]? = some 0 →
    (l'.takeWhile (fun c => c != 0)).length = L := by
  intro L
  induction L with
  | zero =>
    intro l l' hag h h0
    have h0' : l'[0]? = some 0 := by rw [hag 0 (by omega), h0]
    obtain ⟨t', ht'⟩ := exists_cons_of_getElem?_zero h0'
    subst ht'
    simp [List.takeWhile_cons]
  | succ L' ih =>
    intro l l' hag h h0
    cases l with
    | nil => simp at h0
    | cons a t =>
      by_cases ha : a = 0
      · subst ha
        rw [List.takeWhile_cons] at h
        simp at h
      · have hb : (a != 0) = true := by simpa using ha
        rw [List.takeWhile_cons, hb] at h
        simp only [if_true, List.length_cons] at h
        have h0a : l'[0]? = some a := by rw [hag 0 (by omega)]; simp
        obtain ⟨t', ht'⟩ := exists_cons_of_getElem?_zero h0a
        subst ht'
        have hag' : ∀ i, i ≤ L' → t'[i]? = t[i]? := by
          intro i hi
          have := hag (i + 1) (by omega)
          simpa using this
        have h0' : t[L']? = some 0 := by simpa using h0
        rw [List.takeWhile_cons, hb]
        simp only [if_true, List.length_cons]
        rw [ih hag' (by omega) h0']

theorem strlenFrom_stop {data : List Nat} {p L : Nat} (h : strlenFrom data p = L)
    (hb : p + L < data.length) : data[p + L]? = some 0 := by
  have := @takeWhile_length_stop (data.drop p) L h (by simp; omega)
  rwa [List.getElem?_drop] at this

theorem strlenFrom_agree {data data' : List Nat} {p L : Nat}
    (h : strlenFrom data p = L) (hstop : data[p + L]? = some 0)
    (hag : ∀ i, i ≤ L → data'[p + i]? = data[p + i]?) :
    strlenFrom data' p = L := by
  apply @takeWhile_length_agree L (data.drop p) (data'.drop p)
  · intro i hi
    rw [List.getElem?_drop, List.getElem?_drop]
    exact hag i hi
  · exact h
  · rwa [List.getElem?_drop]

/-! ### Helper lemmas: entry matching and the payload scan -/

theorem em_iff_parts {data key : List Nat} {p : Nat} :
    entryMatches data p key = true ↔
      (data.drop p).take key.length = key ∧ data[p + key.length]? = some 61 := by
  simp [entryMatches]

theorem em_pointwise {data key : List Nat} {p : Nat} :
    entryMatches data p key = true ↔
      (∀ i, i < key.length → data[p + i]? = key[i]?) ∧
        data[p + key.length]? = some 61 := by
  rw [em_iff_parts]
  constructor
  · rintro ⟨h1, h2⟩
    refine ⟨fun i hi => ?_, h2⟩
    have : ((data.drop p).take key.length)[i]? = key[i]? := by rw [h1]
    rwa [List.getElem?_take_of_lt hi, List.getElem?_drop] at this
  · rintro ⟨h1, h2⟩
    refine ⟨List.ext_getElem? fun n => ?_, h2⟩
    rcases Nat.lt_or_ge n key.length with hn | hn
    · rw [List.getElem?_take_of_lt hn, List.getElem?_drop]
      exact h1 n hn
    · have hk : key[n]? = none := List.getElem?_eq_none hn
      rw [hk, List.getElem?_eq_none]
      simp
      omega

theorem em_first_byte {data key : List Nat} {p : Nat}
    (hm : entryMatches data p key = true) (hk0 : 0 ∉ key) :
    ∃ c, data[p]? = some c ∧ c ≠ 0 := by
  rcases em_pointwise.mp hm with ⟨h1, h2⟩
  cases key with
  | nil =>
    refine ⟨61, ?_, by omega⟩
    simpa using h2
  | cons k0 kt =>
    have := h1 0 (by simp)
    simp at this
    refine ⟨k0, this, ?_⟩
    intro he
    exact hk0 (he ▸ List.mem_cons_self k0 kt)

theorem em_drop_decomp {data key : List Nat} {p : Nat}
    (hm : entryMatches data p key = true) :
    data.drop p = key ++ 61 :: data.drop (p + key.length + 1) := by
  rcases em_iff_parts.mp hm with ⟨h1, h2⟩
  have h2' : (data.drop p)[key.length]? = some 61 := by
    rw [List.getElem?_drop]; exact h2
  obtain ⟨hlt, hv⟩ := List.getElem?_eq_some.mp h2'
  calc data.drop p
      = (data.drop p).take key.length ++ (data.drop p).drop key.length :=
        (List.take_append_drop _ _).symm
    _ = key ++ 61 :: data.drop (p + key.length + 1) := by
        rw [h1, List.drop_eq_getElem_cons hlt, hv, List.drop_drop, Nat.add_assoc]

theorem takeWhile_entry_len {key rest : List Nat} (hk0 : 0 ∉ key) :
    (List.takeWhile (fun c => c != 0) (key ++ 61 :: rest)).length =
      key.length + 1 + (List.takeWhile (fun c => c != 0) rest).length := by
  induction key with
  | nil =>
    have h61 : ((61 : Nat) != 0) = true := by decide
    simp only [List.nil_append, List.takeWhile_cons, h61, if_true,
      List.length_cons, List.length_nil]
    omega
  | cons a t ih =>
    have ha : a ≠ 0 := fun he => hk0 (he ▸ List.mem_cons_self a t)
    have ht : 0 ∉ t := fun hmem => hk0 (List.mem_cons_of_mem a hmem)
    have hb : (a != 0) = true := by simpa using ha
    simp only [List.cons_append, List.takeWhile_cons, hb, if_true,
      List.length_cons, ih ht]
    omega

theorem em_strlen {data key : List Nat} {p : Nat}
    (hm : entryMatches data p key = true) (hk0 : 0 ∉ key) :
    strlenFrom data p =
      key.length + 1 + (cstr (data.drop (p + key.length + 1))).length := by
  unfold strlenFrom cstr
  rw [em_drop_decomp hm]
  exact takeWhile_entry_len hk0

theorem fk_aux_mono {data key : List Nat} : ∀ {fuel p r : Nat},
    findKeyAux data key p fuel = some r →
    p ≤ r ∧ r < data.length ∧ entryMatches data r key = true := by
  intro fuel
  induction fuel with
  | zero => intro p r h; simp [findKeyAux] at h
  | succ f ih =>
    intro p r h
    cases hq : data[p]? with
    | none => simp [findKeyAux, hq] at h
    | some c =>
      simp only [findKeyAux, hq] at h
      by_cases hc : c = 0
      · rw [if_pos hc] at h; simp at h
      · rw [if_neg hc] at h
        by_cases hmv : entryMatches data p key = true
        · rw [if_pos hmv] at h
          have hr : p = r := by simpa using h
          subst hr
          exact ⟨le_refl _, List.getElem?_eq_some.mp hq |>.1, hmv⟩
        · rw [if_neg hmv] at h
          obtain ⟨h1, h2, h3⟩ := ih h
          exact ⟨by omega, h2, h3⟩

theorem fe_aux_mono {data : List Nat} : ∀ {fuel p e : Nat},
    findEndAux data p fuel = e → p ≤ e := by
  intro fuel
  induction fuel with
  | zero => intro p e h; simp [findEndAux] at h; omega
  | succ f ih =>
    intro p e h
    cases hq : data[p]? with
    | none => simp [findEndAux, hq] at h; omega
    | some c =>
      simp only [findEndAux, hq] at h
      by_cases hc : c = 0
      · rw [if_pos hc] at h; omega
      · rw [if_neg hc] at h
        have := ih h
        omega

theorem fk_prev {data key : List Nat} : ∀ {fuel p r : Nat},
    findKeyAux data key p fuel = some r → r = p ∨ data[r - 1]? = some 0 := by
  intro fuel
  induction fuel with
  | zero => intro p r h; simp [findKeyAux] at h
  | succ f ih =>
    intro p r h
    cases hq : data[p]? with
    | none => simp [findKeyAux, hq] at h
    | some c =>
      simp only [findKeyAux, hq] at h
      by_cases hc : c = 0
      · rw [if_pos hc] at h; simp at h
      · rw [if_neg hc] at h
        by_cases hmv : entryMatches data p key = true
        · rw [if_pos hmv] at h
          left
          simpa using h.symm
        · rw [if_neg hmv] at h
          rcases ih h with h1 | h1
          · right
            obtain ⟨hle, hlt, _⟩ := fk_aux_mono h
            have hs : data[p + strlenFrom data p]? = some 0 :=
              strlenFrom_stop rfl (by omega)
            rw [h1]
            simpa using hs
          · right; exact h1

theorem no_match_fk_none {data key : List Nat}
    (h : ∀ q, entryMatches data q key = false) :
    ∀ fuel p, findKeyAux data key p fuel = none := by
  intro fuel
  induction fuel with
  | zero => intro p; simp [findKeyAux]
  | succ f ih =>
    intro p
    cases hq : data[p]? with
    | none => simp [findKeyAux, hq]
    | some c =>
      simp only [findKeyAux, hq]
      by_cases hc : c = 0
      · rw [if_pos hc]
      · rw [if_neg hc, h p]
        simp only [Bool.false_eq_true, if_false]
        exact ih _

theorem length_le_of_getElem?_none {l : List Nat} {n : Nat} (h : l[n]? = none) :
    l.length ≤ n := by
  by_contra hc
  push_neg at hc
  rw [List.getElem?_eq_getElem hc] at h
  simp at h

/-- Scan transport, match case: if the original scan from `p` finds the
key at `r`, any buffer agreeing below `r` and matching the key at `r`
is found at `r` by the same scan. -/
theorem fk_walk {data data' key : List Nat} {r : Nat} (hk0 : 0 ∉ key)
    (hag : ∀ i, i < r → data'[i]? = data[i]?)
    (hm : entryMatches data' r key = true) :
    ∀ {fuel p : Nat}, findKeyAux data key p fuel = some r →
      findKeyAux data' key p fuel = some r := by
  intro fuel
  induction fuel with
  | zero => intro p h; simp [findKeyAux] at h
  | succ f ih =>
    intro p h
    cases hq : data[p]? with
    | none => simp [findKeyAux, hq] at h
    | some c =>
      simp only [findKeyAux, hq] at h
      by_cases hc : c = 0
      · rw [if_pos hc] at h; simp at h
      · rw [if_neg hc] at h
        by_cases hmv : entryMatches data p key = true
        · rw [if_pos hmv] at h
          have hpr : p = r := by simpa using h
          subst hpr
          obtain ⟨c', hc', hcnz⟩ := em_first_byte hm hk0
          simp only [findKeyAux, hc']
          rw [if_neg hcnz, if_pos hm]
        · rw [if_neg hmv] at h
          obtain ⟨hle, hltr, _⟩ := fk_aux_mono h
          have hstop : data[p + strlenFrom data p]? = some 0 :=
            strlenFrom_stop rfl (by omega)
          have hda : data'[p]? = some c := by rw [hag p (by omega), hq]
          have hsl : strlenFrom data' p = strlenFrom data p :=
            strlenFrom_agree rfl hstop (fun i hi => hag (p + i) (by omega))
          have hnm' : ¬entryMatches data' p key = true := by
            intro hm'
            rcases em_pointwise.mp hm' with ⟨g1, g2⟩
            rcases Nat.lt_or_ge (strlenFrom data p) key.length with hkl | hkl
            · have hg := g1 (strlenFrom data p) hkl
              rw [hag (p + strlenFrom data p) (by omega), hstop] at hg
              exact hk0 (mem_of_getElem?_eq hg.symm)
            · apply hmv
              apply em_pointwise.mpr
              refine ⟨fun i hi => ?_, ?_⟩
              · rw [← hag (p + i) (by omega)]
                exact g1 i hi
              · rw [← hag (p + key.length) (by omega)]
                exact g2
          simp only [findKeyAux, hda]
          rw [if_neg hc, if_neg hnm', hsl]
          exact ih h

/-- Scan transport, append case: if the original scan from `p` matches
nothing and ends at `e`, any buffer agreeing below `e` and matching the
key at `e` is found at `e`. -/
theorem fe_walk {data data' key : List Nat} {e : Nat} (hk0 : 0 ∉ key)
    (hag : ∀ i, i < e → data'[i]? = data[i]?)
    (hm : entryMatches data' e key = true)
    (hlt : e < data.length) :
    ∀ {fuel p : Nat}, data.length < p + fuel →
      findKeyAux data key p fuel = none →
      findEndAux data p fuel = e →
      findKeyAux data' key p fuel = some e := by
  intro fuel
  induction fuel with
  | zero =>
    intro p hfuel hkey hend
    simp only [findEndAux] at hend
    omega
  | succ f ih =>
    intro p hfuel hkey hend
    cases hq : data[p]? with
    | none =>
      simp only [findEndAux, hq] at hend
      have := length_le_of_getElem?_none hq
      omega
    | some c =>
      simp only [findEndAux, hq] at hend
      simp only [findKeyAux, hq] at hkey
      by_cases hc : c = 0
      · rw [if_pos hc] at hend
        subst hend
        obtain ⟨c', hc', hcnz⟩ := em_first_byte hm hk0
        simp only [findKeyAux, hc']
        rw [if_neg hcnz, if_pos hm]
      · rw [if_neg hc] at hend
        rw [if_neg hc] at hkey
        by_cases hmv : entryMatches data p key = true
        · rw [if_pos hmv] at hkey; simp at hkey
        · rw [if_neg hmv] at hkey
          have hpe : p + strlenFrom data p + 1 ≤ e := fe_aux_mono hend
          have hstop : data[p + strlenFrom data p]? = some 0 :=
            strlenFrom_stop rfl (by omega)
          have hda : data'[p]? = some c := by rw [hag p (by omega), hq]
          have hsl : strlenFrom data' p = strlenFrom data p :=
            strlenFrom_agree rfl hstop (fun i hi => hag (p + i) (by omega))
          have hnm' : ¬entryMatches data' p key = true := by
            intro hm'
            rcases em_pointwise.mp hm' with ⟨g1, g2⟩
            rcases Nat.lt_or_ge (strlenFrom data p) key.length with hkl | hkl
            · have hg := g1 (strlenFrom data p) hkl
              rw [hag (p + strlenFrom data p) (by omega), hstop] at hg
              exact hk0 (mem_of_getElem?_eq hg.symm)
            · apply hmv
              apply em_pointwise.mpr
              refine ⟨fun i hi => ?_, ?_⟩
              · rw [← hag (p + i) (by omega)]
                exact g1 i hi
              · rw [← hag (p + key.length) (by omega)]
                exact g2
          simp only [findKeyAux, hda]
          rw [if_neg hc, if_neg hnm', hsl]
          exact ih (by omega) hkey hend

theorem key_byte_nonzero {key : List Nat} (hk0 : 0 ∉ key) {i : Nat}
    (hi : i < key.length) : ∃ k, key[i]? = some k ∧ k ≠ 0 := by
  refine ⟨key[i], List.getElem?_eq_getElem hi, fun he => ?_⟩
  exact hk0 (he ▸ List.getElem_mem hi)

theorem hlast_strlen {data : List Nat} {p : Nat}
    (hlast : data[data.length - 1]? = some 0) (hp : p < data.length) :
    p + strlenFrom data p < data.length := by
  have hmem : 0 ∈ data.drop p := by
    apply mem_of_getElem?_eq (n := data.length - 1 - p)
    rw [List.getElem?_drop]
    rw [show p + (data.length - 1 - p) = data.length - 1 by omega]
    exact hlast
  have := cstr_length_lt hmem
  simp only [strlenFrom]
  have hd : (data.drop p).length = data.length - p := by simp
  omega

/-- If the entry bytes `key=value\0` sit at position `p`, the match test
succeeds there and the extracted value is exactly `value`. -/
theorem em_of_drop_entry {data' key value rest : List Nat} {p : Nat}
    (hd : data'.drop p = key ++ 61 :: (value ++ 0 :: rest)) (hv0 : 0 ∉ value) :
    entryMatches data' p key = true ∧
    cstr (data'.drop (p + key.length + 1)) = value := by
  constructor
  · apply em_iff_parts.mpr
    constructor
    · rw [hd]
      exact List.take_left ..
    · have : (data'.drop p)[key.length]? = some 61 := by
        rw [hd, List.getElem?_append_right (le_refl _)]
        simp
      rwa [List.getElem?_drop] at this
  · have h1 : data'.drop (p + key.length + 1) = value ++ 0 :: rest := by
      have h2 : data'.drop (p + key.length + 1) =
          (data'.drop p).drop (key.length + 1) := by
        rw [List.drop_drop]
        congr 1
      rw [h2, hd, List.drop_append_eq_append_drop,
        List.drop_of_length_le (by simp), List.nil_append]
      rw [show key.length + 1 - key.length = 1 by omega]
      simp
    rw [h1]
    exact cstr_append hv0

/-- The end-of-payload scan runs past any entry found by the key scan. -/
theorem fe_after_match {data key : List Nat} : ∀ {fuel p r : Nat},
    findKeyAux data key p fuel = some r →
    r + strlenFrom data r + 1 ≤ findEndAux data p fuel := by
  intro fuel
  induction fuel with
  | zero => intro p r h; simp [findKeyAux] at h
  | succ f ih =>
    intro p r h
    cases hq : data[p]? with
    | none => simp [findKeyAux, hq] at h
    | some c =>
      simp only [findKeyAux, hq] at h
      simp only [findEndAux, hq]
      by_cases hc : c = 0
      · rw [if_pos hc] at h; simp at h
      · rw [if_neg hc] at h
        rw [if_neg hc]
        by_cases hmv : entryMatches data p key = true
        · rw [if_pos hmv] at h
          have hpr : p = r := by simpa using h
          subst hpr
          rcases Nat.exists_eq_add_of_le
            (@fe_aux_mono data f (p + strlenFrom data p + 1) _ rfl) with ⟨k, hk⟩
          omega
        · rw [if_neg hmv] at h
          exact ih h

/-- In-place overwrite: when the key exists and the new entry fits into
the old one, `uboot_env_set` succeeds, only rewrites the entry bytes, and
a subsequent `uboot_env_get` returns exactly the new value. -/
theorem set_inplace_spec {env : UbootEnv} {key value : List Nat} {p : Nat}
    (hfk : findKeyFrom env.data key 0 = some p)
    (hfit : key.length + 1 + value.length + 1 ≤ strlenFrom env.data p + 1)
    (hk0 : 0 ∉ key) (hv0 : 0 ∉ value)
    (hbound : p + strlenFrom env.data p < env.data.length) :
    uboot_env_set env key value =
      (0, { env with data := writeAt env.data p (key ++ 61 :: value ++ [0]),
                     dirty := true }) ∧
    uboot_env_get { env with
        data := writeAt env.data p (key ++ 61 :: value ++ [0]),
        dirty := true } key = some value := by
  have hp_lt : p < env.data.length := (fk_aux_mono hfk).2.1
  have hel : (key ++ 61 :: value ++ [0]).length = key.length + 1 + value.length + 1 := by
    simp
    omega
  have hwb : p + (key ++ 61 :: value ++ [0]).length ≤ env.data.length := by
    rw [hel]; omega
  have hlen' : (writeAt env.data p (key ++ 61 :: value ++ [0])).length =
      env.data.length := writeAt_length hwb
  have hdrop : (writeAt env.data p (key ++ 61 :: value ++ [0])).drop p =
      key ++ 61 :: (value ++ 0 :: env.data.drop
        (p + (key ++ 61 :: value ++ [0]).length)) := by
    rw [writeAt_drop (by omega)]
    simp
  obtain ⟨hem, hval⟩ := em_of_drop_entry hdrop hv0
  constructor
  · unfold uboot_env_set
    simp only [hfk]
    rw [if_pos hfit, if_neg (by omega)]
  · have hfk' : findKeyFrom (writeAt env.data p (key ++ 61 :: value ++ [0])) key 0 =
        some p := by
      unfold findKeyFrom at hfk ⊢
      rw [hlen']
      exact fk_walk hk0 (fun i hi => writeAt_getElem_lt hi (by omega)) hem hfk
    unfold uboot_env_get
    simp only [hfk', hval]

/-- Append: when the key is absent from `dataA` and the new entry (plus
terminator) fits after the end-of-payload, `envAppend` succeeds and a
subsequent `uboot_env_get` returns exactly the new value. -/
theorem envAppend_spec {env : UbootEnv} {dataA key value : List Nat}
    (hnone : findKeyFrom dataA key 0 = none)
    (hk0 : 0 ∉ key) (hv0 : 0 ∉ value)
    (hroom : key.length + 1 + value.length + 1 + 1 ≤
      dataA.length - findEndFrom dataA 0) :
    (envAppend env dataA (findEndFrom dataA 0) key value
        (key.length + 1 + value.length + 1)).1 = 0 ∧
    (envAppend env dataA (findEndFrom dataA 0) key value
        (key.length + 1 + value.length + 1)).2.dirty = true ∧
    uboot_env_get (envAppend env dataA (findEndFrom dataA 0) key value
        (key.length + 1 + value.length + 1)).2 key = some value := by
  set e := findEndFrom dataA 0 with he
  set el := key.length + 1 + value.length + 1 with helv
  have hbound : e + el + 1 ≤ dataA.length := by omega
  have hel1 : (key ++ 61 :: value ++ [0]).length = el := by
    simp [helv]; omega
  have hcomb : writeAt (writeAt dataA e (key ++ 61 :: value ++ [0])) (e + el) [0] =
      writeAt dataA e ((key ++ 61 :: value ++ [0]) ++ [0]) := by
    rw [show e + el = e + (key ++ 61 :: value ++ [0]).length by rw [hel1]]
    exact writeAt_writeAt (by rw [hel1]; simpa using hbound)
  have hwb2 : e + ((key ++ 61 :: value ++ [0]) ++ [0]).length ≤ dataA.length := by
    simp only [List.length_append, hel1, List.length_cons, List.length_nil]
    omega
  have hlen2 : (writeAt dataA e ((key ++ 61 :: value ++ [0]) ++ [0])).length =
      dataA.length := writeAt_length hwb2
  have hdrop : (writeAt dataA e ((key ++ 61 :: value ++ [0]) ++ [0])).drop e =
      key ++ 61 :: (value ++ 0 :: (0 :: dataA.drop
        (e + ((key ++ 61 :: value ++ [0]) ++ [0]).length))) := by
    rw [writeAt_drop (by omega)]
    simp
  obtain ⟨hem, hval⟩ := em_of_drop_entry hdrop hv0
  have happ : envAppend env dataA e key value el =
      (0, { env with
              data := writeAt (writeAt dataA e (key ++ 61 :: value ++ [0]))
                        (e + el) [0],
              dirty := true }) := by
    unfold envAppend
    rw [if_neg (by omega)]
  have hfk2 : findKeyFrom (writeAt dataA e ((key ++ 61 :: value ++ [0]) ++ [0]))
      key 0 = some e := by
    unfold findKeyFrom
    rw [hlen2]
    exact fe_walk hk0 (fun i hi => writeAt_getElem_lt hi (by omega)) hem
      (by omega) (by omega) hnone rfl
  refine ⟨by rw [happ], by rw [happ], ?_⟩
  rw [happ]
  unfold uboot_env_get
  simp only [hcomb, hfk2, hval]

/-- After compacting away the only entry matching `key`, no position of
the compacted payload matches `key` any more.  Uses: the payload ends in
a NUL byte, the match is unique, and the removed entry is not the very
last record (`p + len < length`). -/
theorem em_lt_length {data key : List Nat} {q : Nat}
    (hm : entryMatches data q key = true) (hk0 : 0 ∉ key) : q < data.length := by
  obtain ⟨c, hc, -⟩ := em_first_byte hm hk0
  exact (List.getElem?_eq_some.mp hc).1

theorem removeAt_no_match {data key : List Nat} {p : Nat}
    (hfk : findKeyFrom data key 0 = some p)
    (hu : ∀ q1, q1 < data.length → ∀ q2, q2 < data.length →
      entryMatches data q1 key = true →
      entryMatches data q2 key = true → q1 = q2)
    (hlast : data[data.length - 1]? = some 0)
    (hk0 : 0 ∉ key) (hkne : key ≠ [])
    (hrem : p + (strlenFrom data p + 1) < data.length) :
    ∀ q, entryMatches (removeAt data p (strlenFrom data p + 1)) q key = false := by
  intro q
  set len := strlenFrom data p + 1 with hlen_def
  set L := data.length with hL_def
  have hple : p + len ≤ L := by omega
  have hlen1 : (removeAt data p len).length = L := removeAt_length hple
  have em_p : entryMatches data p key = true := (fk_aux_mono hfk).2.2
  have hp_lt : p < L := (fk_aux_mono hfk).2.1
  have hprev : p = 0 ∨ data[p - 1]? = some 0 := fk_prev hfk
  by_contra hne
  have hm1 : entryMatches (removeAt data p len) q key = true := by
    cases hb : entryMatches (removeAt data p len) q key
    · exact absurd hb hne
    · rfl
  rcases em_pointwise.mp hm1 with ⟨g1, g2⟩
  have hkl_pos : 0 < key.length := List.length_pos.mpr hkne
  have hq_kl_lt : q + key.length < L := by
    have := (List.getElem?_eq_some.mp g2).1
    omega
  rcases Nat.lt_or_ge (q + key.length) p with hA | hA
  · -- span entirely before the removed entry: identity bytes
    have hm0 : entryMatches data q key = true := by
      apply em_pointwise.mpr
      refine ⟨fun i hi => ?_, ?_⟩
      · rw [← removeAt_getElem_lt (by omega) hple]
        exact g1 i hi
      · rw [← removeAt_getElem_lt (by omega) hple]
        exact g2
    have := hu q (by omega) p (by omega) hm0 em_p
    omega
  rcases Nat.lt_or_ge q p with hB | hB
  · -- span straddles the start of the removed entry: it would have to
    -- cover the NUL byte terminating the previous record
    have hp0 : p ≠ 0 := by omega
    have hpm1 : data[p - 1]? = some 0 := by
      rcases hprev with h1 | h1
      · exact absurd h1 hp0
      · exact h1
    have hj : p - 1 - q < key.length := by omega
    have hg := g1 (p - 1 - q) hj
    rw [show q + (p - 1 - q) = p - 1 by omega] at hg
    rw [removeAt_getElem_lt (by omega) hple, hpm1] at hg
    exact hk0 (mem_of_getElem?_eq hg.symm)
  rcases Nat.lt_or_ge q (L - len) with hC | hC
  · rcases Nat.lt_or_ge (q + key.length) (L - len) with hD | hD
    · -- span entirely inside the shifted region: mirrors a match at q+len
      have hm0 : entryMatches data (q + len) key = true := by
        apply em_pointwise.mpr
        refine ⟨fun i hi => ?_, ?_⟩
        · have := g1 i hi
          rw [removeAt_getElem_mid (by omega) (by omega) hple] at this
          rw [show q + len + i = q + i + len by omega]
          exact this
        · have := g2
          rw [removeAt_getElem_mid (by omega) (by omega) hple] at this
          rw [show q + len + key.length = q + key.length + len by omega]
          exact this
      have := hu (q + len) (em_lt_length hm0 hk0) p (by omega) hm0 em_p
      omega
    · -- span crosses into the preserved tail: the shifted part would
      -- cover the final NUL byte of the buffer
      have hi0 : L - 1 - len - q < key.length := by omega
      have hg := g1 (L - 1 - len - q) hi0
      rw [removeAt_getElem_mid (by omega) (by omega) hple] at hg
      rw [show q + (L - 1 - len - q) + len = L - 1 by omega] at hg
      rw [hlast] at hg
      exact hk0 (mem_of_getElem?_eq hg.symm)
  · -- span entirely inside the preserved tail: identity bytes again
    have hm0 : entryMatches data q key = true := by
      apply em_pointwise.mpr
      refine ⟨fun i hi => ?_, ?_⟩
      · rw [← removeAt_getElem_tail (by omega) hple]
        exact g1 i hi
      · rw [← removeAt_getElem_tail (by omega) hple]
        exact g2
    have := hu q (by omega) p (by omega) hm0 em_p
    omega

/-- Whenever `uboot_env_set` succeeds (and the key occurs at most once in
the payload, which is the data-model invariant), a subsequent
`uboot_env_get` of the same key returns exactly the value just set. -/
theorem set_get_of_success {env : UbootEnv} {key value : List Nat}
    (hk0 : 0 ∉ key) (hkne : key ≠ []) (hv0 : 0 ∉ value)
    (hlast : env.data[env.data.length - 1]? = some 0)
    (hu : ∀ q1, q1 < env.data.length → ∀ q2, q2 < env.data.length →
      entryMatches env.data q1 key = true →
      entryMatches env.data q2 key = true → q1 = q2)
    (hsucc : (uboot_env_set env key value).1 = 0) :
    uboot_env_get (uboot_env_set env key value).2 key = some value := by
  cases hfk : findKeyFrom env.data key 0 with
  | none =>
    have hset : uboot_env_set env key value =
        envAppend env env.data (findEndFrom env.data 0) key value
          (key.length + 1 + value.length + 1) := by
      unfold uboot_env_set
      simp only [hfk]
    rw [hset] at hsucc ⊢
    have hroom : key.length + 1 + value.length + 1 + 1 ≤
        env.data.length - findEndFrom env.data 0 := by
      by_contra hc
      unfold envAppend at hsucc
      rw [if_pos (by omega)] at hsucc
      simp at hsucc
    exact (envAppend_spec hfk hk0 hv0 hroom).2.2
  | some p =>
    have hp_lt : p < env.data.length := (fk_aux_mono hfk).2.1
    have hLb : p + strlenFrom env.data p < env.data.length :=
      hlast_strlen hlast hp_lt
    by_cases hfit : key.length + 1 + value.length + 1 ≤ strlenFrom env.data p + 1
    · obtain ⟨hres, hget⟩ := set_inplace_spec hfk hfit hk0 hv0 hLb
      rw [hres]
      exact hget
    · have hset : uboot_env_set env key value =
          envAppend env (removeAt env.data p (strlenFrom env.data p + 1))
            (findEndFrom (removeAt env.data p (strlenFrom env.data p + 1)) 0)
            key value (key.length + 1 + value.length + 1) := by
        unfold uboot_env_set
        simp only [hfk]
        rw [if_neg hfit]
      rw [hset] at hsucc ⊢
      set data1 := removeAt env.data p (strlenFrom env.data p + 1) with hd1
      have hroom : key.length + 1 + value.length + 1 + 1 ≤
          data1.length - findEndFrom data1 0 := by
        by_contra hc
        unfold envAppend at hsucc
        rw [if_pos (by omega)] at hsucc
        simp at hsucc
      have hple : p + (strlenFrom env.data p + 1) ≤ env.data.length := by omega
      have hrem : p + (strlenFrom env.data p + 1) < env.data.length := by
        rcases Nat.lt_or_ge (p + (strlenFrom env.data p + 1)) env.data.length
          with h | h
        · exact h
        · exfalso
          have heq : p + (strlenFrom env.data p + 1) = env.data.length := by omega
          have hdata1 : data1 = env.data := by
            rw [hd1]
            unfold removeAt
            rw [heq, List.drop_length,
              show env.data.length - (strlenFrom env.data p + 1) = p by omega]
            simp
          have hfe : p + strlenFrom env.data p + 1 ≤ findEndFrom env.data 0 :=
            fe_after_match hfk
          rw [hdata1] at hroom
          omega
      have hnm : ∀ q, entryMatches data1 q key = false :=
        removeAt_no_match hfk hu hlast hk0 hkne hrem
      have hnone1 : findKeyFrom data1 key 0 = none := no_match_fk_none hnm _ _
      exact (envAppend_spec hnone1 hk0 hv0 hroom).2.2

/-! ### Helper lemmas: decimal formatting -/

theorem decBytesAux_ge48 : ∀ {fuel n x : Nat}, x ∈ decBytesAux fuel n → 48 ≤ x := by
  intro fuel
  induction fuel with
  | zero => intro n x h; simp [decBytesAux] at h
  | succ f ih =>
    intro n x h
    cases n with
    | zero => simp [decBytesAux] at h
    | succ n' =>
      simp only [decBytesAux] at h
      rcases List.mem_append.mp h with h1 | h1
      · exact ih h1
      · simp at h1
        omega

theorem decBytes_nonzero {n : Nat} : (0 : Nat) ∉ decBytes n := by
  intro h
  unfold decBytes at h
  by_cases hn : n = 0
  · rw [if_pos hn] at h
    simp at h
  · rw [if_neg hn] at h
    have := decBytesAux_ge48 h
    omega

theorem decBytesAux_len_mono : ∀ {fuel m n : Nat}, m ≤ n →
    (decBytesAux fuel m).length ≤ (decBytesAux fuel n).length := by
  intro fuel
  induction fuel with
  | zero => intro m n h; simp [decBytesAux]
  | succ f ih =>
    intro m n h
    cases m with
    | zero => simp [decBytesAux]
    | succ m' =>
      cases n with
      | zero => omega
      | succ n' =>
        simp only [decBytesAux, List.length_append, List.length_cons,
          List.length_nil]
        have hd : (m' + 1) / 10 ≤ (n' + 1) / 10 := Nat.div_le_div_right h
        have := ih hd
        omega

theorem decBytesAux_fuel : ∀ {f : Nat} (g : Nat) {n : Nat}, n < 10 ^ f → f ≤ g →
    decBytesAux g n = decBytesAux f n := by
  intro f
  induction f with
  | zero =>
    intro g n hn hf
    have hn0 : n = 0 := by simpa using hn
    subst hn0
    cases g with
    | zero => rfl
    | succ g' => rfl
  | succ f' ih =>
    intro g n hn hf
    cases n with
    | zero =>
      cases g with
      | zero => rfl
      | succ g' => rfl
    | succ n' =>
      cases g with
      | zero => omega
      | succ g' =>
        simp only [decBytesAux]
        have hdiv : (n' + 1) / 10 < 10 ^ f' := by
          have h10 : (n' + 1) / 10 * 10 ≤ n' + 1 := Nat.div_mul_le_self _ _
          have : 10 ^ (f' + 1) = 10 ^ f' * 10 := by ring
          by_contra hc
          push_neg at hc
          have := Nat.mul_le_mul_right 10 hc
          omega
        rw [ih g' hdiv (by omega), ih f' hdiv (le_refl _)]

theorem decBytes_len_pos {n : Nat} : 1 ≤ (decBytes n).length := by
  unfold decBytes
  by_cases hn : n = 0
  · rw [if_pos hn]; simp
  · rw [if_neg hn]
    cases n with
    | zero => omega
    | succ n' => simp [decBytesAux]

theorem decBytes_len_mono {m n : Nat} (h : m ≤ n) :
    (decBytes m).length ≤ (decBytes n).length := by
  by_cases hm : m = 0
  · subst hm
    have : (decBytes 0).length = 1 := by simp [decBytes]
    rw [this]
    exact decBytes_len_pos
  · have hn : n ≠ 0 := by omega
    unfold decBytes
    rw [if_neg hm, if_neg hn]
    have hmf : m < 10 ^ (m + 1) :=
      lt_of_lt_of_le (Nat.lt_pow_self (by norm_num) m)
        (Nat.pow_le_pow_right (by norm_num) (by omega))
    rw [← decBytesAux_fuel (n + 1) hmf (by omega)]
    exact decBytesAux_len_mono h

/-! ### Helper lemmas: entries listing -/

theorem cstr_append_prefix {xs rest : List Nat} (h : 0 ∉ xs) :
    cstr (xs ++ rest) = xs ++ cstr rest := by
  induction xs with
  | nil => simp
  | cons a t ih =>
    have ha : a ≠ 0 := fun he => h (he ▸ List.mem_cons_self a t)
    have ht : 0 ∉ t := fun hm => h (List.mem_cons_of_mem a hm)
    have hb : (a != 0) = true := by simpa using ha
    show List.takeWhile (fun c => c != 0) (a :: (t ++ rest)) = a :: (t ++ cstr rest)
    rw [List.takeWhile_cons, hb]
    simp only [if_true]
    exact congrArg (a :: ·) (ih ht)

/-- Every entry found by the key scan is listed by the entries scan and is
an entry for the key. -/
theorem fk_entry_mem {data key : List Nat} (hk0 : 0 ∉ key) :
    ∀ {fuel p r : Nat}, findKeyAux data key p fuel = some r →
      cstr (data.drop r) ∈ entriesAux data p fuel ∧
        isEntryFor key (cstr (data.drop r)) = true := by
  intro fuel
  induction fuel with
  | zero => intro p r h; simp [findKeyAux] at h
  | succ f ih =>
    intro p r h
    cases hq : data[p]? with
    | none => simp [findKeyAux, hq] at h
    | some c =>
      simp only [findKeyAux, hq] at h
      simp only [entriesAux, hq]
      by_cases hc : c = 0
      · rw [if_pos hc] at h; simp at h
      · rw [if_neg hc] at h
        rw [if_neg hc]
        by_cases hmv : entryMatches data p key = true
        · rw [if_pos hmv] at h
          have hpr : p = r := by simpa using h
          subst hpr
          refine ⟨List.mem_cons_self _ _, ?_⟩
          have hdec := em_drop_decomp hmv
          unfold isEntryFor
          rw [hdec, cstr_append_prefix hk0]
          have hc61 : cstr (61 :: data.drop (p + key.length + 1)) =
              61 :: cstr (data.drop (p + key.length + 1)) := by
            unfold cstr
            rw [List.takeWhile_cons]
            simp
          rw [hc61, List.take_append_eq_append_take,
            List.take_of_length_le (by omega),
            show key.length + 1 - key.length = 1 by omega]
          simp
        · rw [if_neg hmv] at h
          obtain ⟨h1, h2⟩ := ih h
          exact ⟨List.mem_cons_of_mem _ h1, h2⟩

theorem get_some_elim {env : UbootEnv} {key v : List Nat}
    (h : uboot_env_get env key = some v) :
    ∃ p, findKeyFrom env.data key 0 = some p ∧
      cstr (env.data.drop (p + key.length + 1)) = v := by
  unfold uboot_env_get at h
  cases hfk : findKeyFrom env.data key 0 with
  | none => rw [hfk] at h; simp at h
  | some p =>
    rw [hfk] at h
    simp at h
    exact ⟨p, rfl, h⟩

/-- C1: for a slot letter in {A, B} whose payload entry agrees with the
cached counter: if the counter is positive, `decrement` returns ok (0),
the cached counter drops by exactly 1, the payload's `BOOT_<slot>_LEFT`
value becomes the decimal of the decremented counter, and the dirty flag
is set; if the counter is already 0, `decrement` returns exhausted (-1)
and neither the cached state nor the payload is touched. -/
theorem claim_C1_decrement (env : UbootEnv) (slot : Nat)
    (hs : slot = 65 ∨ slot = 66)
    (hlast : env.data[env.data.length - 1]? = some 0)
    (hpayload : 0 < slotCounter env slot →
      uboot_env_get env (slotKey slot) =
        some (decBytes (slotCounter env slot).toNat)) :
    (0 < slotCounter env slot →
      (uboot_env_decrement_boot_left env slot).1 = 0 ∧
      slotCounter (uboot_env_decrement_boot_left env slot).2 slot =
        slotCounter env slot - 1 ∧
      uboot_env_get (uboot_env_decrement_boot_left env slot).2 (slotKey slot) =
        some (decBytes (slotCounter env slot - 1).toNat) ∧
      (uboot_env_decrement_boot_left env slot).2.dirty = true) ∧
    (slotCounter env slot = 0 →
      uboot_env_decrement_boot_left env slot = (-1, env)) := by
  rcases hs with h65 | h66
  · subst h65
    have ec : slotCounter env 65 = env.boot_a_left := rfl
    have ek : slotKey 65 = bootALeftKey := rfl
    constructor
    · intro hc
      rw [ec] at hc
      have hpay := hpayload (by rw [ec]; exact hc)
      rw [ek] at hpay
      obtain ⟨p, hfk, hval⟩ := get_some_elim hpay
      have hem : entryMatches env.data p bootALeftKey = true := (fk_aux_mono hfk).2.2
      have hstr := em_strlen hem (by decide)
      rw [hval] at hstr
      have hmono : (decBytes (env.boot_a_left - 1).toNat).length ≤
          (decBytes (slotCounter env 65).toNat).length :=
        decBytes_len_mono (by rw [ec]; omega)
      rw [ec] at hmono
      have hfit : bootALeftKey.length + 1 +
          (decBytes (env.boot_a_left - 1).toNat).length + 1 ≤
          strlenFrom env.data p + 1 := by
        rw [hstr, ec] at *
        omega
      have hbound : p + strlenFrom env.data p < env.data.length :=
        hlast_strlen hlast (fk_aux_mono hfk).2.1
      obtain ⟨hres, hget⟩ :=
        @set_inplace_spec { env with boot_a_left := env.boot_a_left - 1 }
          bootALeftKey (decBytes (env.boot_a_left - 1).toNat) p
          hfk hfit (by decide) decBytes_nonzero hbound
      have hdec : uboot_env_decrement_boot_left env 65 =
          (0, (uboot_env_set { env with boot_a_left := env.boot_a_left - 1 }
            bootALeftKey (decBytes (env.boot_a_left - 1).toNat)).2) := by
        unfold uboot_env_decrement_boot_left
        rw [if_pos rfl, if_pos hc]
      rw [hdec, hres]
      exact ⟨rfl, rfl, hget, rfl⟩
    · intro h0
      rw [ec] at h0
      unfold uboot_env_decrement_boot_left
      rw [if_pos rfl, if_neg (by omega)]
  · subst h66
    have ec : slotCounter env 66 = env.boot_b_left := rfl
    have ek : slotKey 66 = bootBLeftKey := rfl
    constructor
    · intro hc
      rw [ec] at hc
      have hpay := hpayload (by rw [ec]; exact hc)
      rw [ek] at hpay
      obtain ⟨p, hfk, hval⟩ := get_some_elim hpay
      have hem : entryMatches env.data p bootBLeftKey = true := (fk_aux_mono hfk).2.2
      have hstr := em_strlen hem (by decide)
      rw [hval] at hstr
      have hmono : (decBytes (env.boot_b_left - 1).toNat).length ≤
          (decBytes (slotCounter env 66).toNat).length :=
        decBytes_len_mono (by rw [ec]; omega)
      rw [ec] at hmono
      have hfit : bootBLeftKey.length + 1 +
          (decBytes (env.boot_b_left - 1).toNat).length + 1 ≤
          strlenFrom env.data p + 1 := by
        rw [hstr, ec] at *
        omega
      have hbound : p + strlenFrom env.data p < env.data.length :=
        hlast_strlen hlast (fk_aux_mono hfk).2.1
      obtain ⟨hres, hget⟩ :=
        @set_inplace_spec { env with boot_b_left := env.boot_b_left - 1 }
          bootBLeftKey (decBytes (env.boot_b_left - 1).toNat) p
          hfk hfit (by decide) decBytes_nonzero hbound
      have hdec : uboot_env_decrement_boot_left env 66 =
          (0, (uboot_env_set { env with boot_b_left := env.boot_b_left - 1 }
            bootBLeftKey (decBytes (env.boot_b_left - 1).toNat)).2) := by
        unfold uboot_env_decrement_boot_left
        rw [if_neg (by omega), if_pos rfl, if_pos hc]
      rw [hdec, hres]
      exact ⟨rfl, rfl, hget, rfl⟩
    · intro h0
      rw [ec] at h0
      unfold uboot_env_decrement_boot_left
      rw [if_neg (by omega), if_pos rfl, if_neg (by omega)]

theorem claim_C1_decrement_witness :
    (uboot_env_decrement_boot_left c1env 65).1 = 0 ∧
    slotCounter (uboot_env_decrement_boot_left c1env 65).2 65 =
      slotCounter c1env 65 - 1 ∧
    uboot_env_get (uboot_env_decrement_boot_left c1env 65).2 (slotKey 65) =
      some (decBytes (slotCounter c1env 65 - 1).toNat) ∧
    (uboot_env_decrement_boot_left c1env 65).2.dirty = true := by
  have h := (claim_C1_decrement c1env 65 (Or.inl rfl) (by decide)
    (fun _ => by decide)).1 (by decide)
  exact h

/-- C7: whenever `set(k, v)` succeeds, a subsequent `get(k)` returns
exactly `v` (under the payload invariants of the data model: the buffer
ends in NUL, the key and value are NUL-free, and the key is unique); and
`get` of any key with no entry in the payload returns none. -/
theorem claim_C7_set_get (env : UbootEnv) (key value : List Nat)
    (hk0 : 0 ∉ key) (hkne : key ≠ []) (hv0 : 0 ∉ value)
    (hlast : env.data[env.data.length - 1]? = some 0)
    (hu : ∀ q1, q1 < env.data.length → ∀ q2, q2 < env.data.length →
      entryMatches env.data q1 key = true →
      entryMatches env.data q2 key = true → q1 = q2)
    (key' : List Nat) (hk0' : 0 ∉ key') :
    ((uboot_env_set env key value).1 = 0 →
      uboot_env_get (uboot_env_set env key value).2 key = some value) ∧
    ((∀ e ∈ envEntries env.data, isEntryFor key' e = false) →
      uboot_env_get env key' = none) := by
  constructor
  · intro hsucc
    exact set_get_of_success hk0 hkne hv0 hlast hu hsucc
  · intro hab
    unfold uboot_env_get
    cases hfk : findKeyFrom env.data key' 0 with
    | none => rfl
    | some p =>
      exfalso
      obtain ⟨hmem, hef⟩ := fk_entry_mem hk0' hfk
      have hfalse := hab _ hmem
      rw [hef] at hfalse
      simp at hfalse

theorem claim_C7_set_get_witness :
    uboot_env_get (uboot_env_set c7env [66] [50]).2 [66] = some [50] ∧
    uboot_env_get c7env [75] = none := by
  have h := claim_C7_set_get c7env [66] [50] (by decide) (by decide) (by decide)
    (by decide) (by decide) [75] (by decide)
  exact ⟨h.1 (by decide), h.2 (by decide)⟩

/-- C8 counterexample: on `c8env` (payload `K=a\0X=bb\0\0`), setting `K`
to a longer value returns out_of_space, yet the payload bytes have been
mutated (the old `K=a` entry was compacted away), contradicting the
claimed atomicity. -/
theorem claim_C8_counterexample :
    (uboot_env_set c8env [75] [122, 122, 122, 122, 122]).1 = -1 ∧
    (uboot_env_set c8env [75] [122, 122, 122, 122, 122]).2.data ≠
      c8env.data := by decide

/-- C8 (amended): `set` returns out_of_space exactly when the new entry
fits neither in place over an existing entry nor appended at the end of
the (possibly compacted) payload.  On that error the dirty flag and the
cached boot state are unchanged, and the payload is unchanged when the
key was absent; but when the key already existed with a shorter entry,
the payload has already been compacted (the old entry removed), so the
operation is not atomic in that case. -/
theorem claim_C8_set_out_of_space (env : UbootEnv) (key value : List Nat) :
    ((uboot_env_set env key value).1 = -1 ↔
      setFits env.data key value = false) ∧
    ((uboot_env_set env key value).1 = -1 →
      (uboot_env_set env key value).2.dirty = env.dirty ∧
      (uboot_env_set env key value).2.boot_a_left = env.boot_a_left ∧
      (uboot_env_set env key value).2.boot_b_left = env.boot_b_left) ∧
    (findKeyFrom env.data key 0 = none →
      (uboot_env_set env key value).1 = -1 →
      (uboot_env_set env key value).2.data = env.data) ∧
    (∀ p, findKeyFrom env.data key 0 = some p →
      key.length + 1 + value.length + 1 > strlenFrom env.data p + 1 →
      (uboot_env_set env key value).1 = -1 →
      (uboot_env_set env key value).2.data =
        removeAt env.data p (strlenFrom env.data p + 1)) := by
  cases hfk : findKeyFrom env.data key 0 with
  | none =>
    have hset : uboot_env_set env key value =
        envAppend env env.data (findEndFrom env.data 0) key value
          (key.length + 1 + value.length + 1) := by
      unfold uboot_env_set
      simp only [hfk]
    have hsf : setFits env.data key value =
        decide (key.length + 1 + value.length + 1 + 1 ≤
          env.data.length - findEndFrom env.data 0) := by
      unfold setFits
      simp only [hfk]
    rw [hset, hsf]
    unfold envAppend
    by_cases hroom : key.length + 1 + value.length + 1 + 1 >
        env.data.length - findEndFrom env.data 0
    · rw [if_pos hroom]
      have hd : decide (key.length + 1 + value.length + 1 + 1 ≤
          env.data.length - findEndFrom env.data 0) = false := by
        rw [decide_eq_false_iff_not]
        omega
      refine ⟨⟨fun _ => hd, fun _ => rfl⟩, fun _ => ⟨rfl, rfl, rfl⟩,
        fun _ _ => rfl, fun p hp => ?_⟩
      simp at hp
    · rw [if_neg hroom]
      refine ⟨⟨fun h => ?_, fun hd => ?_⟩, fun h => ?_, fun _ h => ?_,
        fun p hp => ?_⟩
      · have h0 : (0 : Int) = -1 := h
        omega
      · exfalso
        rw [decide_eq_false_iff_not] at hd
        omega
      · have h0 : (0 : Int) = -1 := h
        omega
      · have h0 : (0 : Int) = -1 := h
        omega
      · simp at hp
  | some p0 =>
    have hset : uboot_env_set env key value =
        (let existing_len := strlenFrom env.data p0 + 1
         if key.length + 1 + value.length + 1 ≤ existing_len then
           if key.length + 1 + value.length + 1 - 1 ≥ existing_len then (-1, env)
           else (0, { env with
               data := writeAt env.data p0 (key ++ 61 :: value ++ [0]),
               dirty := true })
         else
           envAppend env (removeAt env.data p0 existing_len)
             (findEndFrom (removeAt env.data p0 existing_len) 0) key value
             (key.length + 1 + value.length + 1)) := by
      unfold uboot_env_set
      simp only [hfk]
    have hsf : setFits env.data key value =
        (decide (key.length + 1 + value.length + 1 ≤
            strlenFrom env.data p0 + 1) ||
          decide (key.length + 1 + value.length + 1 + 1 ≤
            (removeAt env.data p0 (strlenFrom env.data p0 + 1)).length -
              findEndFrom (removeAt env.data p0 (strlenFrom env.data p0 + 1)) 0)) := by
      unfold setFits
      simp only [hfk]
    rw [hset, hsf]
    simp only
    by_cases hfit : key.length + 1 + value.length + 1 ≤ strlenFrom env.data p0 + 1
    · rw [if_pos hfit, if_neg (by omega)]
      refine ⟨⟨fun h => ?_, fun hd => ?_⟩, fun h => ?_, fun _ h => ?_,
        fun p hp hlong => ?_⟩
      · have h0 : (0 : Int) = -1 := h
        omega
      · exfalso
        rw [Bool.or_eq_false_iff, decide_eq_false_iff_not] at hd
        exact hd.1 hfit
      · have h0 : (0 : Int) = -1 := h
        omega
      · have h0 : (0 : Int) = -1 := h
        omega
      · have hpp : p0 = p := by simpa using hp
        subst hpp
        omega
    · rw [if_neg hfit]
      unfold envAppend
      by_cases hroom : key.length + 1 + value.length + 1 + 1 >
          (removeAt env.data p0 (strlenFrom env.data p0 + 1)).length -
            findEndFrom (removeAt env.data p0 (strlenFrom env.data p0 + 1)) 0
      · rw [if_pos hroom]
        have hd : (decide (key.length + 1 + value.length + 1 ≤
              strlenFrom env.data p0 + 1) ||
            decide (key.length + 1 + value.length + 1 + 1 ≤
              (removeAt env.data p0 (strlenFrom env.data p0 + 1)).length -
                findEndFrom (removeAt env.data p0 (strlenFrom env.data p0 + 1)) 0)) =
            false := by
          rw [Bool.or_eq_false_iff, decide_eq_false_iff_not,
            decide_eq_false_iff_not]
          exact ⟨hfit, by omega⟩
        refine ⟨⟨fun _ => hd, fun _ => rfl⟩, fun _ => ⟨rfl, rfl, rfl⟩,
          fun hnone => ?_, fun p hp hlong _ => ?_⟩
        · simp at hnone
        · have hpp : p0 = p := by simpa using hp
          subst hpp
          rfl
      · rw [if_neg hroom]
        refine ⟨⟨fun h => ?_, fun hd => ?_⟩, fun h => ?_, fun hnone => ?_,
          fun p hp hlong h => ?_⟩
        · have h0 : (0 : Int) = -1 := h
          omega
        · exfalso
          rw [Bool.or_eq_false_iff, decide_eq_false_iff_not,
            decide_eq_false_iff_not] at hd
          exact hd.2 (by omega)
        · have h0 : (0 : Int) = -1 := h
          omega
        · simp at hnone
        · have h0 : (0 : Int) = -1 := h
          omega

theorem claim_C8_set_out_of_space_witness :
    ((uboot_env_set c8env [75] [122, 122, 122, 122, 122]).1 = -1 ↔
      setFits c8env.data [75] [122, 122, 122, 122, 122] = false) ∧
    (uboot_env_set c8env [75] [122, 122, 122, 122, 122]).2.dirty =
      c8env.dirty ∧
    (uboot_env_set c8env [75] [122, 122, 122, 122, 122]).2.data =
      removeAt c8env.data 0 (strlenFrom c8env.data 0 + 1) := by
  have h := claim_C8_set_out_of_space c8env [75] [122, 122, 122, 122, 122]
  exact ⟨h.1, (h.2.1 (by decide)).1,
    h.2.2.2 0 (by decide) (by decide) (by decide)⟩

/-! ### Slot selector: tokenisation and claim C2/C3 -/

theorem splitTokens_spaceJoin : ∀ {letters : List Nat},
    (∀ l ∈ letters, l ≠ 32) →
    splitTokens (spaceJoin letters) = letters.map (fun l => [l]) := by
  intro letters
  induction letters with
  | nil => intro _; rfl
  | cons l ls ih =>
    intro hl
    have hl0 : l ≠ 32 := hl l (List.mem_cons_self l ls)
    have hls : ∀ x ∈ ls, x ≠ 32 := fun x hx => hl x (List.mem_cons_of_mem l hx)
    cases ls with
    | nil =>
      show splitTokensAux [l] [] = [[l]]
      unfold splitTokensAux
      rw [if_neg hl0]
      unfold splitTokensAux
      simp
    | cons l2 ls' =>
      show splitTokensAux (l :: 32 :: spaceJoin (l2 :: ls')) [] = [l] :: _
      unfold splitTokensAux
      rw [if_neg hl0]
      unfold splitTokensAux
      rw [if_pos rfl, if_neg (by simp)]
      have := ih hls
      unfold splitTokens at this
      rw [this]
      simp

theorem bootSlotLoop_find (a b : Int) : ∀ letters : List Nat,
    bootSlotLoop a b (letters.map (fun l => [l])) =
      letters.find? (slotQualifies a b) := by
  intro letters
  induction letters with
  | nil => rfl
  | cons l ls ih =>
    show bootSlotLoop a b ([l] :: ls.map _) = _
    by_cases hq : slotQualifies a b l = true
    · rw [List.find?_cons_of_pos _ hq]
      simp only [slotQualifies, Bool.or_eq_true, Bool.and_eq_true, beq_iff_eq,
        decide_eq_true_eq] at hq
      unfold bootSlotLoop
      rcases hq with ⟨h1, h2⟩ | ⟨h1, h2⟩
      · subst h1
        rw [if_pos ⟨rfl, h2⟩]
      · subst h1
        rw [if_neg (by simp), if_pos ⟨rfl, h2⟩]
    · rw [List.find?_cons_of_neg _ hq]
      simp only [slotQualifies, Bool.or_eq_true, Bool.and_eq_true, beq_iff_eq,
        decide_eq_true_eq] at hq
      push_neg at hq
      unfold bootSlotLoop
      have hn1 : ¬(([l] : List Nat).headD 0 = 65 ∧ a > 0) := by
        rintro ⟨ha, hb⟩
        have hl65 : l = 65 := by simpa using ha
        have := hq.1 hl65
        omega
      have hn2 : ¬(([l] : List Nat).headD 0 = 66 ∧ b > 0) := by
        rintro ⟨ha, hb⟩
        have hl66 : l = 66 := by simpa using ha
        have := hq.2 hl66
        omega
      rw [if_neg hn1, if_neg hn2]
      exact ih

/-- C2: on a well-formed `BOOT_ORDER` (single letters joined by single
spaces), `uboot_env_get_boot_slot` returns the first letter whose counter
is positive — unknown letters are skipped since they never qualify — and
falls back to the first letter of `BOOT_ORDER` when all are exhausted. -/
theorem claim_C2_current_slot (crc : Nat) (data : List Nat) (dirty : Bool)
    (a b : Int) (letters : List Nat)
    (hl : ∀ l ∈ letters, l ≠ 32 ∧ l ≠ 0) :
    uboot_env_get_boot_slot ⟨crc, data, dirty, spaceJoin letters, a, b⟩ =
      specCurrentSlot a b letters := by
  unfold uboot_env_get_boot_slot specCurrentSlot
  simp only
  rw [splitTokens_spaceJoin (fun l hm => (hl l hm).1), bootSlotLoop_find]
  cases hf : letters.find? (slotQualifies a b) with
  | some x => rfl
  | none =>
    simp only [Option.getD_none]
    cases letters with
    | nil => rfl
    | cons l ls =>
      cases ls with
      | nil => rfl
      | cons l2 ls' => rfl

theorem claim_C2_current_slot_witness :
    uboot_env_get_boot_slot ⟨0, [], false, spaceJoin [65, 66], 0, 2⟩ =
      specCurrentSlot 0 2 [65, 66] ∧
    specCurrentSlot 0 2 [65, 66] = 66 := by
  refine ⟨claim_C2_current_slot 0 [] false 0 2 [65, 66] (by decide), by decide⟩

theorem nextSlotLoop_spec (a b : Int) (cur : Nat) :
    ∀ (letters : List Nat) (found : Bool),
    nextSlotLoop a b cur found (letters.map (fun l => [l])) =
      (if found then (letters.find? (slotQualifies a b)).getD 0
       else specNextSlot a b cur letters) := by
  intro letters
  induction letters with
  | nil =>
    intro found
    cases found <;> rfl
  | cons l ls ih =>
    intro found
    show nextSlotLoop a b cur found ([l] :: ls.map _) = _
    cases found with
    | true =>
      rw [if_pos rfl]
      by_cases hq : slotQualifies a b l = true
      · rw [List.find?_cons_of_pos _ hq]
        simp only [slotQualifies, Bool.or_eq_true, Bool.and_eq_true, beq_iff_eq,
          decide_eq_true_eq] at hq
        unfold nextSlotLoop
        rcases hq with ⟨h1, h2⟩ | ⟨h1, h2⟩
        · subst h1
          rw [if_pos ⟨rfl, rfl, h2⟩]
          rfl
        · subst h1
          rw [if_neg (by rintro ⟨-, hh, -⟩; simp at hh), if_pos ⟨rfl, rfl, h2⟩]
          rfl
      · rw [List.find?_cons_of_neg _ hq]
        simp only [slotQualifies, Bool.or_eq_true, Bool.and_eq_true, beq_iff_eq,
          decide_eq_true_eq] at hq
        push_neg at hq
        unfold nextSlotLoop
        have hn1 : ¬(True ∧ ([l] : List Nat).headD 0 = 65 ∧ a > 0) := by
          rintro ⟨-, ha, hb⟩
          have hl65 : l = 65 := by simpa using ha
          have := hq.1 hl65
          omega
        have hn2 : ¬(True ∧ ([l] : List Nat).headD 0 = 66 ∧ b > 0) := by
          rintro ⟨-, ha, hb⟩
          have hl66 : l = 66 := by simpa using ha
          have := hq.2 hl66
          omega
        rw [if_neg (by simpa using hn1), if_neg (by simpa using hn2)]
        have := ih true
        rw [if_pos rfl] at this
        simpa using this
    | false =>
      unfold nextSlotLoop
      rw [if_neg (by rintro ⟨hh, -⟩; simp at hh),
        if_neg (by rintro ⟨hh, -⟩; simp at hh)]
      show nextSlotLoop a b cur (false || (([l] : List Nat).headD 0 == cur))
        (ls.map _) = specNextSlot a b cur (l :: ls)
      by_cases hc : l = cur
      · have hb2 : (false || (([l] : List Nat).headD 0 == cur)) = true := by
          simp [hc]
        rw [hb2]
        have := ih true
        rw [if_pos rfl] at this
        rw [this, show specNextSlot a b cur (l :: ls) =
          (if l = cur then ((ls.find? (slotQualifies a b)).getD 0)
           else specNextSlot a b cur ls) from rfl, if_pos hc]
      · have hb2 : (false || (([l] : List Nat).headD 0 == cur)) = false := by
          simp
          exact hc
        rw [hb2]
        have := ih false
        rw [if_neg (by simp)] at this
        rw [this, show specNextSlot a b cur (l :: ls) =
          (if l = cur then ((ls.find? (slotQualifies a b)).getD 0)
           else specNextSlot a b cur ls) from rfl, if_neg hc]

theorem dec_fail_unchanged {env : UbootEnv} {slot : Nat}
    (h : (uboot_env_decrement_boot_left env slot).1 < 0) :
    (uboot_env_decrement_boot_left env slot).2 = env := by
  unfold uboot_env_decrement_boot_left at h ⊢
  by_cases h65 : slot = 65
  · rw [if_pos h65] at h ⊢
    by_cases ha : env.boot_a_left > 0
    · rw [if_pos ha] at h
      simp at h
    · rw [if_neg ha] at h ⊢
  · rw [if_neg h65] at h ⊢
    by_cases h66 : slot = 66
    · rw [if_pos h66] at h ⊢
      by_cases hb : env.boot_b_left > 0
      · rw [if_pos hb] at h
        simp at h
      · rw [if_neg hb] at h ⊢
    · rw [if_neg h66] at h ⊢

/-- C3: in the A/B pre-boot step, when `decrement(current)` reports
exhausted the env is untouched and `next_slot(current)` is consulted; it
returns the first slot after the first occurrence of `current` in
`BOOT_ORDER` whose counter is positive (0 = none when no successor
qualifies); when it yields a slot, the current slot switches to it and
that slot is decremented; when it yields none, the state is retained
unchanged. -/
theorem claim_C3_pre_boot (crc : Nat) (data : List Nat) (dirty : Bool)
    (a b : Int) (letters : List Nat) (cur : Nat)
    (hl : ∀ l ∈ letters, l ≠ 32 ∧ l ≠ 0)
    (hex : (uboot_env_decrement_boot_left
      ⟨crc, data, dirty, spaceJoin letters, a, b⟩ cur).1 < 0) :
    (uboot_env_decrement_boot_left
        ⟨crc, data, dirty, spaceJoin letters, a, b⟩ cur).2 =
      ⟨crc, data, dirty, spaceJoin letters, a, b⟩ ∧
    uboot_env_get_next_slot ⟨crc, data, dirty, spaceJoin letters, a, b⟩ cur =
      specNextSlot a b cur letters ∧
    (uboot_env_get_next_slot ⟨crc, data, dirty, spaceJoin letters, a, b⟩ cur ≠ 0 →
      preBootSelect ⟨⟨crc, data, dirty, spaceJoin letters, a, b⟩, cur, true⟩ =
        ⟨(uboot_env_decrement_boot_left
            ⟨crc, data, dirty, spaceJoin letters, a, b⟩
            (uboot_env_get_next_slot
              ⟨crc, data, dirty, spaceJoin letters, a, b⟩ cur)).2,
          uboot_env_get_next_slot
            ⟨crc, data, dirty, spaceJoin letters, a, b⟩ cur, true⟩) ∧
    (uboot_env_get_next_slot ⟨crc, data, dirty, spaceJoin letters, a, b⟩ cur = 0 →
      preBootSelect ⟨⟨crc, data, dirty, spaceJoin letters, a, b⟩, cur, true⟩ =
        ⟨⟨crc, data, dirty, spaceJoin letters, a, b⟩, cur, true⟩) := by
  have hunch := dec_fail_unchanged hex
  have hnext : uboot_env_get_next_slot
      ⟨crc, data, dirty, spaceJoin letters, a, b⟩ cur =
      specNextSlot a b cur letters := by
    unfold uboot_env_get_next_slot
    show nextSlotLoop a b cur false (splitTokens (spaceJoin letters)) = _
    rw [splitTokens_spaceJoin (fun l hm => (hl l hm).1), nextSlotLoop_spec]
    rw [if_neg (by simp)]
  refine ⟨hunch, hnext, ?_, ?_⟩
  · intro hn
    unfold preBootSelect
    rw [if_pos hex]
    simp only [hunch]
    rw [if_pos hn]
  · intro hn
    unfold preBootSelect
    rw [if_pos hex]
    simp only [hunch]
    rw [if_neg (by simpa using hn)]

theorem claim_C3_pre_boot_witness :
    preBootSelect ⟨⟨0, [], false, [65, 32, 66], 0, 1⟩, 65, true⟩ =
      ⟨(uboot_env_decrement_boot_left ⟨0, [], false, [65, 32, 66], 0, 1⟩ 66).2,
        66, true⟩ ∧
    uboot_env_get_next_slot ⟨0, [], false, [65, 32, 66], 0, 1⟩ 65 =
      specNextSlot 0 1 65 [65, 66] := by
  have h := claim_C3_pre_boot 0 [] false 0 1 [65, 66] 65 (by decide) (by decide)
  exact ⟨h.2.2.1 (by decide), h.2.1⟩

/-! ### Claim C9: save -/

theorem crc32Round_lt {c : Nat} (h : c < 2 ^ 32) : crc32Round c < 2 ^ 32 := by
  unfold crc32Round
  by_cases hp : c % 2 = 1
  · rw [if_pos hp]
    exact Nat.xor_lt_two_pow (by omega) (by norm_num)
  · rw [if_neg hp]
    omega

theorem crc32Byte_lt {c b : Nat} (h : c < 2 ^ 32) : crc32Byte c b < 2 ^ 32 := by
  unfold crc32Byte
  have h0 : c ^^^ b % 256 < 2 ^ 32 := Nat.xor_lt_two_pow h (by omega)
  exact crc32Round_lt (crc32Round_lt (crc32Round_lt (crc32Round_lt
    (crc32Round_lt (crc32Round_lt (crc32Round_lt (crc32Round_lt h0)))))))

theorem crc32_foldl_lt : ∀ (bytes : List Nat) (c : Nat), c < 2 ^ 32 →
    bytes.foldl crc32Byte c < 2 ^ 32 := by
  intro bytes
  induction bytes with
  | nil => intro c h; simpa using h
  | cons x t ih =>
    intro c h
    exact ih _ (crc32Byte_lt h)

theorem uboot_env_crc_lt (data : List Nat) : uboot_env_crc data < 2 ^ 32 := by
  unfold uboot_env_crc crc32z
  apply Nat.xor_lt_two_pow
  · exact crc32_foldl_lt data _ (Nat.xor_lt_two_pow (by norm_num) (by norm_num))
  · norm_num

theorem de32_le32 {n : Nat} (h : n < 2 ^ 32) : de32 (le32 n) = n := by
  unfold de32 le32
  simp only [List.getD]
  simp
  omega

/-- C9: `uboot_env_save` is a no-op returning ok when the Env is not
dirty; when dirty (and the single device write succeeds) it writes
exactly one image of `size = payload + 5` bytes at the given offset —
4-byte little-endian CRC32 computed over exactly the payload bytes,
flags byte 0x01, then the payload — and clears the dirty flag, so the
written region satisfies `CRC32(payload) == header_crc`, `flags == 1`,
`dirty == false`. -/
theorem claim_C9_save (env : UbootEnv) (writeOk : Bool) :
    (env.dirty = false → uboot_env_save env writeOk = (0, env, none)) ∧
    (env.dirty = true → writeOk = true →
      (uboot_env_save env writeOk).1 = 0 ∧
      (uboot_env_save env writeOk).2.1.dirty = false ∧
      ∃ img, (uboot_env_save env writeOk).2.2 = some img ∧
        img.length = env.data.length + 5 ∧
        img.take 4 = le32 (uboot_env_crc env.data) ∧
        img[4]? = some 1 ∧
        img.drop 5 = env.data ∧
        de32 (img.take 4) = uboot_env_crc (img.drop 5)) := by
  constructor
  · intro hd
    unfold uboot_env_save
    rw [if_pos hd]
  · intro hd hw
    subst hw
    have hsave : uboot_env_save env true =
        (0, { env with crc := uboot_env_crc env.data, dirty := false },
          some (le32 (uboot_env_crc env.data) ++ 1 :: env.data)) := by
      unfold uboot_env_save
      rw [if_neg (by rw [hd]; simp), if_pos rfl]
    rw [hsave]
    refine ⟨rfl, rfl, le32 (uboot_env_crc env.data) ++ 1 :: env.data, rfl,
      ?_, ?_, ?_, ?_, ?_⟩
    · simp [le32]
    · rw [show (4 : Nat) = (le32 (uboot_env_crc env.data)).length by simp [le32],
        List.take_left]
    · rw [List.getElem?_append_right (by simp [le32])]
      simp [le32]
    · rw [List.drop_append_eq_append_drop, List.drop_of_length_le (by simp [le32])]
      simp [le32]
    · rw [show (4 : Nat) = (le32 (uboot_env_crc env.data)).length by simp [le32],
        List.take_left]
      rw [List.drop_append_eq_append_drop, List.drop_of_length_le (by simp [le32]),
        List.nil_append,
        show 5 - (le32 (uboot_env_crc env.data)).length = 1 by simp [le32],
        show ((1 : Nat) :: env.data).drop 1 = env.data from rfl]
      exact de32_le32 (uboot_env_crc_lt env.data)

theorem claim_C9_save_witness :
    uboot_env_save ⟨0, [7, 8, 9], false, [], 0, 0⟩ true =
      (0, ⟨0, [7, 8, 9], false, [], 0, 0⟩, none) ∧
    (uboot_env_save ⟨0, [7, 8, 9], true, [], 0, 0⟩ true).1 = 0 ∧
    (uboot_env_save ⟨0, [7, 8, 9], true, [], 0, 0⟩ true).2.1.dirty = false ∧
    ∃ img, (uboot_env_save ⟨0, [7, 8, 9], true, [], 0, 0⟩ true).2.2 = some img ∧
      img.length = 8 ∧
      de32 (img.take 4) = uboot_env_crc (img.drop 5) ∧
      img[4]? = some 1 := by
  have h1 := (claim_C9_save ⟨0, [7, 8, 9], false, [], 0, 0⟩ true).1 rfl
  have h2 := (claim_C9_save ⟨0, [7, 8, 9], true, [], 0, 0⟩ true).2 rfl rfl
  obtain ⟨ha, hb, img, hc, hlen, htake, hat, hdrop, hcrc⟩ := h2
  exact ⟨h1, ha, hb, img, hc, hlen, hcrc, hat⟩

/-! ### UMS: claim C4 (CBW/CSW protocol invariant) -/

/-- C4: for every CBW accepted by the main loop (exactly 31 bytes
received, valid signature), exactly one CSW is emitted; it echoes the
CBW tag, its status is in {0, 1, 2}, and a nonzero status carries
residue equal to the CBW's `data_transfer_length`. -/
theorem claim_C4_csw (d : UmsDevice) (cbw : Cbw) (host : List Nat)
    (recvLen : Nat) (hlen : recvLen = 31)
    (hsig : cbw.signature = 0x43425355) :
    ∃ c, (ums_thread_iteration d recvLen cbw host).2.2.2 = some c ∧
      c.signature = 0x53425355 ∧
      c.tag = cbw.tag ∧
      (c.status = 0 ∨ c.status = 1 ∨ c.status = 2) ∧
      (c.status ≠ 0 → c.data_residue = cbw.data_transfer_length) := by
  subst hlen
  unfold ums_thread_iteration
  rw [if_pos rfl]
  unfold ums_handle_cbw
  rw [if_neg (by simp [hsig])]
  refine ⟨⟨0x53425355, cbw.tag,
    (if (ums_handle_scsi_command d cbw host).1 < 0 then
      cbw.data_transfer_length else 0),
    (if (ums_handle_scsi_command d cbw host).1 < 0 then 1 else 0)⟩,
    rfl, rfl, rfl, ?_, ?_⟩
  · by_cases hr : (ums_handle_scsi_command d cbw host).1 < 0
    · right
      left
      show (if (ums_handle_scsi_command d cbw host).1 < 0 then 1 else 0) = 1
      rw [if_pos hr]
    · left
      show (if (ums_handle_scsi_command d cbw host).1 < 0 then 1 else 0) = 0
      rw [if_neg hr]
  · intro hne
    by_cases hr : (ums_handle_scsi_command d cbw host).1 < 0
    · show (if (ums_handle_scsi_command d cbw host).1 < 0 then
        cbw.data_transfer_length else 0) = cbw.data_transfer_length
      rw [if_pos hr]
    · exfalso
      apply hne
      show (if (ums_handle_scsi_command d cbw host).1 < 0 then 1 else 0) = 0
      rw [if_neg hr]

theorem claim_C4_csw_witness :
    ∃ c, (ums_thread_iteration initialUms 31
        ⟨0x43425355, 7, 99, 0, 0, 6, [0, 0, 0, 0, 0, 0, 0, 0, 0, 0, 0, 0, 0, 0, 0, 0]⟩
        []).2.2.2 = some c ∧
      c.signature = 0x53425355 ∧
      c.tag = 7 ∧
      (c.status = 0 ∨ c.status = 1 ∨ c.status = 2) ∧
      (c.status ≠ 0 → c.data_residue = 99) := by
  exact claim_C4_csw initialUms
    ⟨0x43425355, 7, 99, 0, 0, 6, [0, 0, 0, 0, 0, 0, 0, 0, 0, 0, 0, 0, 0, 0, 0, 0]⟩
    [] 31 rfl rfl

/-! ### UMS: state preservation and claim C10 -/

theorem readLoop_preserve (d : UmsDevice) (mbpc : Nat) :
    ∀ fuel lba remaining,
    (readLoop d mbpc lba remaining fuel).2.1.is_read_only = d.is_read_only ∧
    (readLoop d mbpc lba remaining fuel).2.1.is_mounted = d.is_mounted := by
  intro fuel
  induction fuel with
  | zero =>
    intro lba remaining
    unfold readLoop
    by_cases h : remaining = 0
    · rw [if_pos h]
      exact ⟨rfl, rfl⟩
    · rw [if_neg h]
      exact ⟨rfl, rfl⟩
  | succ f ih =>
    intro lba remaining
    unfold readLoop
    by_cases h : remaining = 0
    · rw [if_pos h]
      exact ⟨rfl, rfl⟩
    · rw [if_neg h]
      dsimp only
      cases hb : bioRead d.storage (lba * d.block_size)
          ((if remaining > mbpc then mbpc else remaining) * d.block_size) with
      | none => exact ⟨rfl, rfl⟩
      | some bytes => exact ih _ _

theorem writeLoop_preserve (mbpc : Nat) :
    ∀ (fuel : Nat) (d : UmsDevice) (lba remaining : Nat) (host : List Nat),
    (writeLoop d mbpc lba remaining host fuel).2.1.is_read_only =
      d.is_read_only ∧
    (writeLoop d mbpc lba remaining host fuel).2.1.is_mounted =
      d.is_mounted := by
  intro fuel
  induction fuel with
  | zero =>
    intro d lba remaining host
    unfold writeLoop
    by_cases h : remaining = 0
    · rw [if_pos h]
      exact ⟨rfl, rfl⟩
    · rw [if_neg h]
      exact ⟨rfl, rfl⟩
  | succ f ih =>
    intro d lba remaining host
    unfold writeLoop
    by_cases h : remaining = 0
    · rw [if_pos h]
      exact ⟨rfl, rfl⟩
    · rw [if_neg h]
      dsimp only
      by_cases hb : lba * d.block_size +
          (if remaining > mbpc then mbpc else remaining) * d.block_size ≤
          d.storage.length
      · rw [if_pos hb]
        exact ih _ _ _ _
      · rw [if_neg hb]
        exact ⟨rfl, rfl⟩

theorem scsi_preserve (d : UmsDevice) (cbw : Cbw) (host : List Nat) :
    (ums_handle_scsi_command d cbw host).2.1.is_read_only = d.is_read_only ∧
    (ums_handle_scsi_command d cbw host).2.1.is_mounted = d.is_mounted := by
  unfold ums_handle_scsi_command
  split
  · unfold ums_scsi_test_unit_ready
    split
    · exact ⟨rfl, rfl⟩
    · exact ⟨rfl, rfl⟩
  · exact ⟨rfl, rfl⟩
  · exact ⟨rfl, rfl⟩
  · unfold ums_scsi_read_capacity
    split
    · exact ⟨rfl, rfl⟩
    · exact ⟨rfl, rfl⟩
  · unfold ums_scsi_read_10
    split
    · exact ⟨rfl, rfl⟩
    · dsimp only
      split
      · exact ⟨rfl, rfl⟩
      · exact readLoop_preserve d _ _ _ _
  · unfold ums_scsi_write_10
    split
    · exact ⟨rfl, rfl⟩
    · split
      · exact ⟨rfl, rfl⟩
      · dsimp only
        split
        · exact ⟨rfl, rfl⟩
        · exact writeLoop_preserve _ _ d _ _ _
  · exact ⟨rfl, rfl⟩
  · exact ⟨rfl, rfl⟩
  · exact ⟨rfl, rfl⟩
  · exact ⟨rfl, rfl⟩
  · exact ⟨rfl, rfl⟩

theorem cbw_preserve (d : UmsDevice) (cbw : Cbw) (host : List Nat) :
    (ums_handle_cbw d cbw host).2.1.is_read_only = d.is_read_only ∧
    (ums_handle_cbw d cbw host).2.1.is_mounted = d.is_mounted := by
  unfold ums_handle_cbw
  split
  · exact ⟨rfl, rfl⟩
  · exact scsi_preserve d cbw host

theorem umsReach_mounted_not_ro : ∀ d : UmsDevice, UmsReach d →
    d.is_mounted = true → d.is_read_only = false := by
  intro d h
  induction h with
  | init => intro hm; simp [initialUms] at hm
  | umsInit d bufSize hr ih => intro hm; exact ih hm
  | mountOk d bc bs st hr => intro _; rfl
  | unmount d hr ih =>
    intro hm
    simp [ums_unmount_partition] at hm
  | cbwStep d cbw host hr ih =>
    intro hm
    have hp := cbw_preserve d cbw host
    rw [hp.1]
    apply ih
    rw [← hp.2]
    exact hm
  | exitMode d hr ih => intro hm; simp [initialUms] at hm

theorem writeLoop_sense (mbpc : Nat) :
    ∀ (fuel : Nat) (d : UmsDevice) (lba remaining : Nat) (host : List Nat),
    ∀ s ∈ (writeLoop d mbpc lba remaining host fuel).2.2.senseSets,
      s = (3, 0, 0) := by
  intro fuel
  induction fuel with
  | zero =>
    intro d lba remaining host s hs
    unfold writeLoop at hs
    by_cases h : remaining = 0
    · rw [if_pos h] at hs
      simp [Effects.nil] at hs
    · rw [if_neg h] at hs
      simp [Effects.nil] at hs
  | succ f ih =>
    intro d lba remaining host s hs
    unfold writeLoop at hs
    by_cases h : remaining = 0
    · rw [if_pos h] at hs
      simp [Effects.nil] at hs
    · rw [if_neg h] at hs
      dsimp only at hs
      by_cases hb : lba * d.block_size +
          (if remaining > mbpc then mbpc else remaining) * d.block_size ≤
          d.storage.length
      · rw [if_pos hb] at hs
        simp [Effects.app, hostReadEff, bioWriteEff] at hs
        exact ih _ _ _ _ s hs
      · rw [if_neg hb] at hs
        simp [Effects.app, hostReadEff, bioWriteEff, senseEff] at hs
        simp [hs]

theorem readLoop_sense (d : UmsDevice) (mbpc : Nat) :
    ∀ (fuel lba remaining : Nat),
    ∀ s ∈ (readLoop d mbpc lba remaining fuel).2.2.senseSets, s = (3, 0, 0) := by
  intro fuel
  induction fuel with
  | zero =>
    intro lba remaining s hs
    unfold readLoop at hs
    by_cases h : remaining = 0
    · rw [if_pos h] at hs
      simp [Effects.nil] at hs
    · rw [if_neg h] at hs
      simp [Effects.nil] at hs
  | succ f ih =>
    intro lba remaining s hs
    unfold readLoop at hs
    by_cases h : remaining = 0
    · rw [if_pos h] at hs
      simp [Effects.nil] at hs
    · rw [if_neg h] at hs
      dsimp only at hs
      cases hb : bioRead d.storage (lba * d.block_size)
          ((if remaining > mbpc then mbpc else remaining) * d.block_size) with
      | none =>
        rw [hb] at hs
        simp [Effects.app, bioReadEff, senseEff] at hs
        simp [hs]
      | some bytes =>
        rw [hb] at hs
        simp [Effects.app, bioReadEff, hostWriteEff] at hs
        exact ih _ _ s hs

/-- C10: in every state reachable through the public UMS entry protocol,
a mounted device has its read-only flag clear (ums_mount_partition
unconditionally clears it and nothing sets it), so WRITE(10)'s
write-protected branch — sense (ILLEGAL_REQUEST, ASC 0x27) — can never
fire. -/
theorem claim_C10_write_protect_unreachable (d : UmsDevice)
    (hr : UmsReach d) :
    (d.is_mounted = true → d.is_read_only = false) ∧
    (∀ cbw host, (5, 0x27, 0) ∉
      (ums_scsi_write_10 d cbw host).2.2.senseSets) := by
  refine ⟨umsReach_mounted_not_ro d hr, fun cbw host => ?_⟩
  unfold ums_scsi_write_10
  by_cases hm : d.is_mounted = true ∧ d.has_bio_dev = true
  · rw [if_neg (by simpa using hm)]
    have hro : d.is_read_only = false := umsReach_mounted_not_ro d hr hm.1
    rw [if_neg (by simp [hro])]
    by_cases hrange : rwOutOfRange d (cdbLba cbw) (cdbCount cbw)
    · rw [if_pos hrange]
      simp [senseEff]
    · rw [if_neg hrange]
      intro hmem
      have := writeLoop_sense (d.buffer_size / d.block_size) (cdbCount cbw) d
        (cdbLba cbw) (cdbCount cbw) host _ hmem
      simp at this
  · rw [if_pos (by simpa using hm)]
    simp [senseEff]

theorem claim_C10_write_protect_unreachable_witness :
    ((ums_mount_partition initialUms 2 4 [1, 2, 3, 4, 5, 6, 7, 8]).is_mounted =
        true →
      (ums_mount_partition initialUms 2 4 [1, 2, 3, 4, 5, 6, 7, 8]).is_read_only =
        false) ∧
    (5, 0x27, 0) ∉ (ums_scsi_write_10
      (ums_mount_partition initialUms 2 4 [1, 2, 3, 4, 5, 6, 7, 8])
      ⟨0x43425355, 1, 512, 0, 0, 10,
        [0x2A, 0, 0, 0, 0, 0, 0, 0, 1, 0, 0, 0, 0, 0, 0, 0]⟩
      [9, 9, 9, 9]).2.2.senseSets := by
  have h := claim_C10_write_protect_unreachable
    (ums_mount_partition initialUms 2 4 [1, 2, 3, 4, 5, 6, 7, 8])
    (UmsReach.mountOk initialUms 2 4 [1, 2, 3, 4, 5, 6, 7, 8] UmsReach.init)
  exact ⟨h.1, h.2
    ⟨0x43425355, 1, 512, 0, 0, 10,
      [0x2A, 0, 0, 0, 0, 0, 0, 0, 1, 0, 0, 0, 0, 0, 0, 0]⟩
    [9, 9, 9, 9]⟩

/-! ### UMS: claim C5 (READ(10) delivers the exact device slice) -/

theorem readLoop_ok (d : UmsDevice) (mbpc : Nat) (hm : 0 < mbpc) :
    ∀ (fuel lba remaining : Nat), remaining ≤ fuel →
    (lba + remaining) * d.block_size ≤ d.storage.length →
    (readLoop d mbpc lba remaining fuel).2.2.hostWrites.flatten =
      (d.storage.drop (lba * d.block_size)).take
        (remaining * d.block_size) ∧
    (∀ w ∈ (readLoop d mbpc lba remaining fuel).2.2.hostWrites,
      w.length ≤ mbpc * d.block_size) ∧
    (readLoop d mbpc lba remaining fuel).2.2.bioReads.length =
      (readLoop d mbpc lba remaining fuel).2.2.hostWrites.length := by
  intro fuel
  induction fuel with
  | zero =>
    intro lba remaining hle hr
    have h0 : remaining = 0 := Nat.le_zero.mp hle
    subst h0
    unfold readLoop
    rw [if_pos rfl]
    refine ⟨by simp [Effects.nil], ?_, rfl⟩
    intro w hw
    simp [Effects.nil] at hw
  | succ f ih =>
    intro lba remaining hle hr
    by_cases h0 : remaining = 0
    · subst h0
      unfold readLoop
      rw [if_pos rfl]
      refine ⟨by simp [Effects.nil], ?_, rfl⟩
      intro w hw
      simp [Effects.nil] at hw
    · unfold readLoop
      rw [if_neg h0]
      dsimp only
      have hch1 : (if remaining > mbpc then mbpc else remaining) ≤ remaining := by
        by_cases hgt : remaining > mbpc
        · rw [if_pos hgt]
          omega
        · rw [if_neg hgt]
      have hch3 : 0 < (if remaining > mbpc then mbpc else remaining) := by
        by_cases hgt : remaining > mbpc
        · rw [if_pos hgt]
          exact hm
        · rw [if_neg hgt]
          omega
      have hboff : lba * d.block_size +
          (if remaining > mbpc then mbpc else remaining) * d.block_size ≤
          d.storage.length := by
        refine le_trans ?_ hr
        rw [Nat.add_mul]
        exact Nat.add_le_add_left (Nat.mul_le_mul_right _ hch1) _
      have hsucc : bioRead d.storage (lba * d.block_size)
          ((if remaining > mbpc then mbpc else remaining) * d.block_size) =
          some ((d.storage.drop (lba * d.block_size)).take
            ((if remaining > mbpc then mbpc else remaining) * d.block_size)) := by
        unfold bioRead
        rw [if_pos hboff]
      rw [hsucc]
      dsimp only
      have hrange2 : (lba + (if remaining > mbpc then mbpc else remaining) +
          (remaining - (if remaining > mbpc then mbpc else remaining))) *
          d.block_size ≤ d.storage.length := by
        have he : lba + (if remaining > mbpc then mbpc else remaining) +
            (remaining - (if remaining > mbpc then mbpc else remaining)) =
            lba + remaining := by omega
        rw [he]
        exact hr
      have IH := ih (lba + (if remaining > mbpc then mbpc else remaining))
        (remaining - (if remaining > mbpc then mbpc else remaining))
        (by omega) hrange2
      refine ⟨?_, ?_, ?_⟩
      · simp only [Effects.app, bioReadEff, hostWriteEff, List.nil_append,
          List.cons_append, List.flatten_cons]
        rw [IH.1]
        have hsplit : remaining * d.block_size =
            (if remaining > mbpc then mbpc else remaining) * d.block_size +
            (remaining - (if remaining > mbpc then mbpc else remaining)) *
              d.block_size := by
          rw [← Nat.add_mul]
          congr 1
          omega
        rw [hsplit, List.take_add]
        congr 1
        have he2 : (lba + (if remaining > mbpc then mbpc else remaining)) *
            d.block_size =
            lba * d.block_size +
            (if remaining > mbpc then mbpc else remaining) * d.block_size := by
          ring
        rw [he2, ← List.drop_drop]
      · intro w hw
        simp only [Effects.app, bioReadEff, hostWriteEff, List.nil_append,
          List.cons_append, List.mem_cons] at hw
        cases hw with
        | inl hweq =>
          subst hweq
          have hlen := List.length_take
            ((if remaining > mbpc then mbpc else remaining) * d.block_size)
            (d.storage.drop (lba * d.block_size))
          rw [hlen]
          have hch2 : (if remaining > mbpc then mbpc else remaining) ≤ mbpc := by
            by_cases hgt : remaining > mbpc
            · rw [if_pos hgt]
            · rw [if_neg hgt]
              omega
          exact le_trans (min_le_left _ _) (Nat.mul_le_mul_right _ hch2)
        | inr hwmem => exact IH.2.1 w hwmem
      · simp only [Effects.app, bioReadEff, hostWriteEff, List.nil_append,
          List.cons_append, List.length_cons]
        rw [IH.2.2]

/-- C5: READ(10) on a mounted device with `lba + count ≤ block_count`
delivers to the host exactly the device bytes in
`[lba·block_size, (lba+count)·block_size)`; the chunked implementation
sends it in chunks of at most `buffer_size / block_size` blocks, each
chunk one block read followed by one USB write, and the earlier
single-transfer implementation delivers the same bytes (one read, one
write). -/
theorem claim_C5_read_delivers_slice (d : UmsDevice) (cbw : Cbw)
    (hmo : d.is_mounted = true) (hbd : d.has_bio_dev = true)
    (hst : d.storage.length = d.block_count * d.block_size)
    (hbs : 0 < d.block_size) (hbuf : d.block_size ≤ d.buffer_size)
    (hrange : cdbLba cbw + cdbCount cbw ≤ d.block_count) :
    (ums_scsi_read_10 d cbw).2.2.hostWrites.flatten =
      (d.storage.drop (cdbLba cbw * d.block_size)).take
        (cdbCount cbw * d.block_size) ∧
    (∀ w ∈ (ums_scsi_read_10 d cbw).2.2.hostWrites,
      w.length ≤ d.buffer_size / d.block_size * d.block_size) ∧
    (ums_scsi_read_10 d cbw).2.2.bioReads.length =
      (ums_scsi_read_10 d cbw).2.2.hostWrites.length ∧
    (ums_scsi_read_10_v1 d cbw).2.2.hostWrites.flatten =
      (d.storage.drop (cdbLba cbw * d.block_size)).take
        (cdbCount cbw * d.block_size) ∧
    (ums_scsi_read_10_v1 d cbw).2.2.bioReads.length =
      (ums_scsi_read_10_v1 d cbw).2.2.hostWrites.length := by
  have hmbpc : 0 < d.buffer_size / d.block_size :=
    (Nat.one_le_div_iff hbs).mpr hbuf
  have hlen : (cdbLba cbw + cdbCount cbw) * d.block_size ≤
      d.storage.length := by
    rw [hst]
    exact Nat.mul_le_mul_right _ hrange
  have hnm : ¬¬(d.is_mounted = true ∧ d.has_bio_dev = true) := by
    simp [hmo, hbd]
  unfold ums_scsi_read_10 ums_scsi_read_10_v1
  rw [if_neg hnm]
  rw [if_neg hnm]
  dsimp only
  by_cases hr : rwOutOfRange d (cdbLba cbw) (cdbCount cbw)
  · have hmod := Nat.mod_le (cdbLba cbw + cdbCount cbw) (2 ^ 32)
    have htl0 : cdbCount cbw = 0 := by
      cases hr with
      | inl h => omega
      | inr h => omega
    rw [if_pos hr]
    rw [if_pos hr]
    rw [htl0]
    refine ⟨by simp [senseEff], ?_, by simp [senseEff], by simp [senseEff], ?_⟩
    · intro w hw
      simp [senseEff] at hw
    · simp [senseEff]
  · rw [if_neg hr]
    rw [if_neg hr]
    have hok := readLoop_ok d (d.buffer_size / d.block_size) hmbpc
      (cdbCount cbw) (cdbLba cbw) (cdbCount cbw) le_rfl hlen
    have hbr : bioRead d.storage (cdbLba cbw * d.block_size)
        (cdbCount cbw * d.block_size) =
        some ((d.storage.drop (cdbLba cbw * d.block_size)).take
          (cdbCount cbw * d.block_size)) := by
      unfold bioRead
      rw [if_pos (by rw [← Nat.add_mul]; exact hlen)]
    rw [hbr]
    dsimp only
    refine ⟨hok.1, hok.2.1, hok.2.2, ?_, ?_⟩
    · simp [Effects.app, bioReadEff, hostWriteEff]
    · simp [Effects.app, bioReadEff, hostWriteEff]

theorem claim_C5_read_delivers_slice_witness :
    (ums_mount_partition (ums_init_state initialUms 4) 2 4
        [1, 2, 3, 4, 5, 6, 7, 8]).is_mounted = true ∧
    cdbLba ⟨0x43425355, 2, 8, 0x80, 0, 10,
        [0x28, 0, 0, 0, 0, 0, 0, 0, 2, 0, 0, 0, 0, 0, 0, 0]⟩ +
      cdbCount ⟨0x43425355, 2, 8, 0x80, 0, 10,
        [0x28, 0, 0, 0, 0, 0, 0, 0, 2, 0, 0, 0, 0, 0, 0, 0]⟩ ≤
      (ums_mount_partition (ums_init_state initialUms 4) 2 4
        [1, 2, 3, 4, 5, 6, 7, 8]).block_count ∧
    (ums_scsi_read_10
        (ums_mount_partition (ums_init_state initialUms 4) 2 4
          [1, 2, 3, 4, 5, 6, 7, 8])
        ⟨0x43425355, 2, 8, 0x80, 0, 10,
          [0x28, 0, 0, 0, 0, 0, 0, 0, 2, 0, 0, 0, 0, 0, 0, 0]⟩).2.2.hostWrites.flatten =
      [1, 2, 3, 4, 5, 6, 7, 8] := by
  refine ⟨by decide, by decide, ?_⟩
  have h := claim_C5_read_delivers_slice
    (ums_mount_partition (ums_init_state initialUms 4) 2 4
      [1, 2, 3, 4, 5, 6, 7, 8])
    ⟨0x43425355, 2, 8, 0x80, 0, 10,
      [0x28, 0, 0, 0, 0, 0, 0, 0, 2, 0, 0, 0, 0, 0, 0, 0]⟩
    rfl rfl (by decide) (by decide) (by decide) (by decide)
  rw [h.1]
  decide

/-! ### UMS: claim C6 (READ/WRITE range validation) -/

theorem getD_lt_of_all_lt (l : List Nat) (h : ∀ x ∈ l, x < 256) (i : Nat) :
    l.getD i 0 < 256 := by
  induction l generalizing i with
  | nil =>
    have he : List.getD ([] : List Nat) i 0 = 0 := by simp [List.getD]
    rw [he]
    decide
  | cons a t ih =>
    cases i with
    | zero =>
      rw [List.getD_cons_zero]
      exact h a (List.mem_cons_self a t)
    | succ j =>
      rw [List.getD_cons_succ]
      exact ih (fun x hx => h x (List.mem_cons_of_mem a hx)) j

theorem cdbCount_lt (cbw : Cbw) (h : ∀ x ∈ cbw.cb, x < 256) :
    cdbCount cbw < 2 ^ 16 := by
  unfold cdbCount
  have h7 := getD_lt_of_all_lt cbw.cb h 7
  have h8 := getD_lt_of_all_lt cbw.cb h 8
  omega

theorem rwRange_iff (d : UmsDevice) (lba tl : Nat) (htl : tl < 2 ^ 16)
    (hbc : d.block_count + 2 ^ 16 ≤ 2 ^ 32) :
    rwOutOfRange d lba tl ↔
      (lba ≥ d.block_count ∨ lba + tl > d.block_count) := by
  unfold rwOutOfRange
  by_cases hw : lba + tl < 2 ^ 32
  · rw [Nat.mod_eq_of_lt hw]
  · constructor
    · intro _
      left
      omega
    · intro _
      left
      omega

/-- The C range check rejects `lba = block_count` with `count = 0`: a
mounted one-block device fails a READ(10) at `lba = 1, count = 0` with
sense (ILLEGAL_REQUEST, INVALID_FIELD_IN_CDB) although
`lba + count ≤ block_count`, contradicting the claimed
"if and only if `lba + count > block_count`". -/
theorem claim_C6_counterexample :
    cdbLba ⟨0x43425355, 1, 0, 0, 0, 10,
        [0x28, 0, 0, 0, 0, 1, 0, 0, 0, 0, 0, 0, 0, 0, 0, 0]⟩ +
      cdbCount ⟨0x43425355, 1, 0, 0, 0, 10,
        [0x28, 0, 0, 0, 0, 1, 0, 0, 0, 0, 0, 0, 0, 0, 0, 0]⟩ ≤
      (ums_mount_partition initialUms 1 4 [1, 2, 3, 4]).block_count ∧
    (5, 0x24, 0) ∈ (ums_scsi_read_10
      (ums_mount_partition initialUms 1 4 [1, 2, 3, 4])
      ⟨0x43425355, 1, 0, 0, 0, 10,
        [0x28, 0, 0, 0, 0, 1, 0, 0, 0, 0, 0, 0, 0, 0, 0, 0]⟩).2.2.senseSets := by
  decide

/-- C6 (amended): on a mounted, writable device whose CDB bytes are bytes
and whose block count leaves headroom for the 16-bit count below 2^32,
READ(10) and WRITE(10) fail with sense (ILLEGAL_REQUEST,
INVALID_FIELD_IN_CDB) iff `lba ≥ block_count ∨ lba + count >
block_count` (the code also rejects `lba = block_count` with `count =
0`); on that failure the command performs no transfer at all: the result
is exactly the sense-setting error triple. -/
theorem claim_C6_range_check (d : UmsDevice) (cbw : Cbw) (host : List Nat)
    (hmo : d.is_mounted = true) (hbd : d.has_bio_dev = true)
    (hro : d.is_read_only = false)
    (hbytes : ∀ x ∈ cbw.cb, x < 256)
    (hbc : d.block_count + 2 ^ 16 ≤ 2 ^ 32) :
    (((5, 0x24, 0) ∈ (ums_scsi_read_10 d cbw).2.2.senseSets ↔
        (cdbLba cbw ≥ d.block_count ∨
         cdbLba cbw + cdbCount cbw > d.block_count)) ∧
      ((cdbLba cbw ≥ d.block_count ∨
        cdbLba cbw + cdbCount cbw > d.block_count) →
        ums_scsi_read_10 d cbw =
          (-1, setSense d 5 0x24 0, senseEff 5 0x24 0))) ∧
    (((5, 0x24, 0) ∈ (ums_scsi_write_10 d cbw host).2.2.senseSets ↔
        (cdbLba cbw ≥ d.block_count ∨
         cdbLba cbw + cdbCount cbw > d.block_count)) ∧
      ((cdbLba cbw ≥ d.block_count ∨
        cdbLba cbw + cdbCount cbw > d.block_count) →
        ums_scsi_write_10 d cbw host =
          (-1, setSense d 5 0x24 0, senseEff 5 0x24 0))) := by
  have hiff := rwRange_iff d (cdbLba cbw) (cdbCount cbw)
    (cdbCount_lt cbw hbytes) hbc
  have hnm : ¬¬(d.is_mounted = true ∧ d.has_bio_dev = true) := by
    simp [hmo, hbd]
  have hnro : ¬d.is_read_only = true := by
    simp [hro]
  constructor
  · unfold ums_scsi_read_10
    rw [if_neg hnm]
    dsimp only
    by_cases hr : rwOutOfRange d (cdbLba cbw) (cdbCount cbw)
    · rw [if_pos hr]
      refine ⟨?_, fun _ => rfl⟩
      simp only [senseEff]
      simp only [List.mem_singleton]
      exact ⟨fun _ => hiff.mp hr, fun _ => trivial⟩
    · rw [if_neg hr]
      constructor
      · constructor
        · intro hmem
          have := readLoop_sense d (d.buffer_size / d.block_size)
            (cdbCount cbw) (cdbLba cbw) (cdbCount cbw) _ hmem
          simp at this
        · intro hcond
          exact absurd (hiff.mpr hcond) hr
      · intro hcond
        exact absurd (hiff.mpr hcond) hr
  · unfold ums_scsi_write_10
    rw [if_neg hnm]
    rw [if_neg hnro]
    dsimp only
    by_cases hr : rwOutOfRange d (cdbLba cbw) (cdbCount cbw)
    · rw [if_pos hr]
      refine ⟨?_, fun _ => rfl⟩
      simp only [senseEff]
      simp only [List.mem_singleton]
      exact ⟨fun _ => hiff.mp hr, fun _ => trivial⟩
    · rw [if_neg hr]
      constructor
      · constructor
        · intro hmem
          have := writeLoop_sense (d.buffer_size / d.block_size)
            (cdbCount cbw) d (cdbLba cbw) (cdbCount cbw) host _ hmem
          simp at this
        · intro hcond
          exact absurd (hiff.mpr hcond) hr
      · intro hcond
        exact absurd (hiff.mpr hcond) hr

theorem claim_C6_range_check_witness :
    ((5, 0x24, 0) ∈ (ums_scsi_read_10
        (ums_mount_partition initialUms 1 4 [1, 2, 3, 4])
        ⟨0x43425355, 1, 0, 0, 0, 10,
          [0x28, 0, 0, 0, 0, 1, 0, 0, 0, 0, 0, 0, 0, 0, 0, 0]⟩).2.2.senseSets ↔
      (cdbLba ⟨0x43425355, 1, 0, 0, 0, 10,
          [0x28, 0, 0, 0, 0, 1, 0, 0, 0, 0, 0, 0, 0, 0, 0, 0]⟩ ≥
          (ums_mount_partition initialUms 1 4 [1, 2, 3, 4]).block_count ∨
        cdbLba ⟨0x43425355, 1, 0, 0, 0, 10,
          [0x28, 0, 0, 0, 0, 1, 0, 0, 0, 0, 0, 0, 0, 0, 0, 0]⟩ +
          cdbCount ⟨0x43425355, 1, 0, 0, 0, 10,
            [0x28, 0, 0, 0, 0, 1, 0, 0, 0, 0, 0, 0, 0, 0, 0, 0]⟩ >
          (ums_mount_partition initialUms 1 4 [1, 2, 3, 4]).block_count)) := by
  exact (claim_C6_range_check (ums_mount_partition initialUms 1 4 [1, 2, 3, 4])
    ⟨0x43425355, 1, 0, 0, 0, 10,
      [0x28, 0, 0, 0, 0, 1, 0, 0, 0, 0, 0, 0, 0, 0, 0, 0]⟩
    [] rfl rfl rfl (by decide) (by decide)).1.1
